import Mathlib

/-!
Verification of the boolean-minimization engine in `kmap_simplify.py`
(Karnaugh-map minimization for access patterns).

The Python source is shallowly embedded:
* Python unbounded non-negative ints become `Nat`; bit tests `x & (1 << p)`
  become `Nat.testBit x p`, and `a & ~b` (on non-negative values) becomes
  `ldiffN a b = a ^^^ (a &&& b)`.
* Python sets of ints become `Finset ℕ`.  Where the source iterates over a
  set we iterate in ascending order (`ascList`); every value the engine
  produces is independent of that iteration order, as the theorems below
  show, so this models CPython's unspecified set order faithfully.
* Python dicts (used for the Quine-McCluskey levels) become association
  lists that keep the dict's insertion-order semantics (`dictSet`).
* Python strings become `String`; `re.findall(BRACKET_RE, s)` is embedded
  as the deterministic scanner `findallGroups` (the regex
  `\[\s*([A-Z]+)\s*\]` has pairwise-disjoint character classes, so its
  backtracking matcher is equivalent to this greedy scanner).
-/

/-! ### Small generic helpers -/

/-- Bit `i` of `n` as in the source's `n & (1 << i)` tests. -/
def tbit (n i : ℕ) : Bool := Nat.testBit n i

/-- `a & ~b` for unbounded non-negative ints: clear from `a` the bits of `b`. -/
def ldiffN (a b : ℕ) : ℕ := a ^^^ (a &&& b)

/-- Fuel-driven binary popcount (kernel-computable). -/
def popcountF : ℕ → ℕ → ℕ
  | 0, _ => 0
  | f + 1, n => if n = 0 then 0 else n % 2 + popcountF f (n / 2)

/-- `bin(n).count("1")` from the source. -/
def popcount (n : ℕ) : ℕ := popcountF n n

/-- Ascending list of the elements of a finite set of naturals
(models iteration over a CPython set of small ints). -/
def ascList (s : Finset ℕ) : List ℕ := (List.range (s.sup id + 1)).filter (fun x => x ∈ s)

/-- Insertion into a sorted list (by a boolean `le`). -/
def insertSorted (le : α → α → Bool) (x : α) : List α → List α
  | [] => [x]
  | y :: ys => if le x y then x :: y :: ys else y :: insertSorted le x ys

/-- Insertion sort, used to model Python's `sorted` / `list.sort`. -/
def insSort (le : α → α → Bool) : List α → List α
  | [] => []
  | x :: xs => insertSorted le x (insSort le xs)

/-- First-occurrence deduplication (models Python dict-key order). -/
def dedupF [DecidableEq α] (seen : List α) : List α → List α
  | [] => []
  | a :: as => if a ∈ seen then dedupF seen as else a :: dedupF (a :: seen) as

/-- Index of the last occurrence of `a` in `l` (Python dict comprehension
`{v: i for i, v in enumerate(l)}`, where a later index overwrites). -/
def lastIdx? [DecidableEq α] (l : List α) (a : α) : Option ℕ :=
  match l with
  | [] => none
  | b :: bs =>
    match lastIdx? bs a with
    | some j => some (j + 1)
    | none => if b = a then some 0 else none

/-- Python's `min(l)` over a nonempty list with a strict-less test `lt`
(first minimal element wins ties). -/
def pyMin (lt : α → α → Bool) (dflt : α) : List α → α
  | [] => dflt
  | a :: as => as.foldl (fun acc x => if lt x acc then x else acc) a

/-- Lexicographic strict order on lists of naturals (Python tuple `<`). -/
def lexLtN : List ℕ → List ℕ → Bool
  | [], [] => false
  | [], _ :: _ => true
  | _ :: _, [] => false
  | a :: as, b :: bs => if a < b then true else if b < a then false else lexLtN as bs

/-- Lexicographic `≤` on lists of characters (Python string comparison,
by code point). -/
def lexLeCh : List Char → List Char → Bool
  | [], _ => true
  | _ :: _, [] => false
  | a :: as, b :: bs => if a < b then true else if b < a then false else lexLeCh as bs

/-- Python string `<=` via code-point lexicographic order on the data. -/
def strLe (s t : String) : Bool := lexLeCh s.data t.data

/-! ### Term-set parser (`BRACKET_RE`, `parse_expr_to_minterms`, `extract_variables`) -/

/-- ASCII whitespace as matched by the regex class `\s`. -/
def isPySpace (c : Char) : Bool :=
  c = ' ' || c = '\t' || c = '\n' || c = '\r' || c = '\x0b' || c = '\x0c'

/-- The character class `[A-Z]` of `BRACKET_RE`. -/
def isUpperAZ (c : Char) : Bool := 'A' ≤ c && c ≤ 'Z'

/-- Attempt to match `\s*([A-Z]+)\s*\]` at the start of `cs` (the text just
after a `[`).  Returns the group's letters and the rest of the input. -/
def matchGroup (cs : List Char) : Option (List Char × List Char) :=
  let cs1 := cs.dropWhile isPySpace
  let letters := cs1.takeWhile isUpperAZ
  let cs2 := (cs1.dropWhile isUpperAZ).dropWhile isPySpace
  match letters, cs2 with
  | [], _ => none
  | _ :: _, ']' :: rest => some (letters, rest)
  | _ :: _, _ => none

/-- One fuel-indexed step of `re.findall(BRACKET_RE, ·)`: scan left to
right, consuming each non-overlapping match. -/
def scanFuel : ℕ → List Char → List (List Char)
  | 0, _ => []
  | fuel + 1, [] => []
  | fuel + 1, c :: rest =>
    if c = '[' then
      match matchGroup rest with
      | some (letters, rest2) => letters :: scanFuel fuel rest2
      | none => scanFuel fuel rest
    else scanFuel fuel rest

/-- `BRACKET_RE.findall(s)` on the character list `cs`. -/
def findallGroups (cs : List Char) : List (List Char) := scanFuel cs.length cs

/-- Python `str.strip()` on a character list. -/
def stripList (cs : List Char) : List Char :=
  ((cs.dropWhile isPySpace).reverse.dropWhile isPySpace).reverse

/-- Truthiness of the optional expression strings (`None` and `""` are falsy). -/
def truthy : Option String → Bool
  | none => false
  | some s => s ≠ ""

/-- The bracket groups of an expression, each filtered to its alphabetic
characters (`[ch for ch in match if ch.isalpha()]`). -/
def exprTerms (s : String) : List (List Char) :=
  (findallGroups s.data).map (fun g => g.filter Char.isAlpha)

/-- Value of variable `f` in the assignment encoded by minterm `m`
(`var_assignment[factor]`; the dict is keyed by the last index of each
variable, and variable `i` occupies bit `n - 1 - i`). -/
def varVal (vars : List Char) (m : ℕ) (f : Char) : Bool :=
  match lastIdx? vars f with
  | none => false
  | some i => tbit m (vars.length - 1 - i)

/-- One conjunction (`term`) is satisfied by minterm `m`. -/
def termSat (vars : List Char) (m : ℕ) (t : List Char) : Bool :=
  t.all (fun f => varVal vars m f)

/-- `parse_expr_to_minterms(expr, variables)`: truth-table indices at which
the expression is true. -/
def parse_expr_to_minterms (expr : Option String) (vars : List Char) : Finset ℕ :=
  match expr with
  | none => ∅
  | some s =>
    if stripList s.data = [] ∨ stripList s.data = ['-'] then ∅
    else
      let terms := exprTerms s
      if terms = [] then ∅
      else (Finset.range (2 ^ vars.length)).filter
        (fun m => terms.any (fun t => termSat vars m t))

/-- Raw letters of all groups of an expression (`extract_variables` before
set formation; `None` and `""` yield nothing). -/
def extractLetters (expr : Option String) : List Char :=
  match expr with
  | none => []
  | some s => if s = "" then [] else (findallGroups s.data).flatMap (fun g => g.filter Char.isAlpha)

/-- Comparison `≤` for characters as a Bool. -/
def chLe (a b : Char) : Bool := a ≤ b

/-- A Python set of characters, rendered canonically as a sorted
duplicate-free list (as `sorted(list(the_set))` does). -/
def sortedDedupCh (l : List Char) : List Char := insSort chLe (dedupF [] l)

/-- `extract_variables(expr)` as a canonical sorted list. -/
def extract_variables (expr : Option String) : List Char := sortedDedupCh (extractLetters expr)


/-! ### Prime Implicant Finder (`adjacent_cells`, `find_prime_implicants`) -/

/-- `adjacent_cells(cell1, cell2)`: the two cells differ in exactly one bit
(`bin(cell1 ^ cell2).count("1") == 1`). -/
def adjacent_cells (cell1 cell2 : ℕ) : Bool := popcount (cell1 ^^^ cell2) = 1

/-- Python dict assignment `d[k] = v` on an insertion-ordered association
list: update in place if the key exists, else append. -/
def dictSet (l : List (ℕ × ℕ)) (k v : ℕ) : List (ℕ × ℕ) :=
  match l with
  | [] => [(k, v)]
  | (k0, v0) :: rest => if k0 = k then (k0, v) :: rest else (k0, v0) :: dictSet rest k v

/-- All ordered pairs `(items[i], items[j])` with `i < j`, in the double-loop
order of the source. -/
def allPairs : List α → List (α × α)
  | [] => []
  | x :: xs => (xs.map (fun y => (x, y))) ++ allPairs xs

/-- Process one candidate pair of the merging double loop: if the two terms
are adjacent, store the combined term/mask in `next_level` and mark both
terms used. -/
def mergeStep (st : List (ℕ × ℕ) × Finset ℕ) (pr : (ℕ × ℕ) × (ℕ × ℕ)) :
    List (ℕ × ℕ) × Finset ℕ :=
  let term1 := pr.1.1
  let mask1 := pr.1.2
  let term2 := pr.2.1
  let mask2 := pr.2.2
  if adjacent_cells term1 term2 then
    let diff_bit := term1 ^^^ term2
    (dictSet st.1 (term1 &&& term2) (ldiffN (mask1 &&& mask2) diff_bit),
      insert term1 (insert term2 st.2))
  else st

/-- One generation of merging: the `for i ... for j ...` double loop.
Returns `(next_level, used)`. -/
def mergePass (items : List (ℕ × ℕ)) : List (ℕ × ℕ) × Finset ℕ :=
  (allPairs items).foldl mergeStep ([], ∅)

/-- The `while current_level:` loop: emit this generation's unmerged
implicants as primes, then recurse on the next generation.  The fuel is
bounded below by the level's length (each generation is strictly smaller),
so the zero-fuel branch is never reached from `find_prime_implicants`. -/
def levelLoop : ℕ → List (ℕ × ℕ) → List (ℕ × ℕ)
  | 0, _ => []
  | _ + 1, [] => []
  | fuel + 1, x :: xs =>
    let level := x :: xs
    let st := mergePass level
    (level.filter (fun tm => tm.1 ∉ st.2)) ++ levelLoop fuel st.1

/-- `current_level = {minterm: minterm for minterm in minterms}`. -/
def initialLevel (minterms : Finset ℕ) : List (ℕ × ℕ) :=
  (ascList minterms).map (fun m => (m, m))

/-- `find_prime_implicants(minterms)`: Quine-McCluskey merging, returning
the `(term, mask)` pairs never consumed by a merge. -/
def find_prime_implicants (minterms : Finset ℕ) : List (ℕ × ℕ) :=
  if minterms = ∅ then []
  else levelLoop (minterms.card + 1) (initialLevel minterms)


/-! ### Implicant coverage (`get_covered_minterms`) -/

/-- The don't-care bit positions of an implicant: positions `num_vars-1-i`
for `i` ascending, at which the mask bit is 0. -/
def dontCareBits (mask num_vars : ℕ) : List ℕ :=
  ((List.range num_vars).map (fun i => num_vars - 1 - i)).filter (fun p => ¬ tbit mask p)

/-- OR together `1 << p` for the chosen don't-care positions. -/
def orBits : List ℕ → ℕ
  | [] => 0
  | p :: ps => (1 <<< p) ||| orBits ps

/-- `get_covered_minterms(implicant, num_vars)`: the source enumerates every
0/1 assignment to the don't-care positions (`itertools.product`), i.e. every
subset of `dontCareBits`, OR-ing the chosen bits onto the term. -/
def get_covered_minterms (implicant : ℕ × ℕ) (num_vars : ℕ) : Finset ℕ :=
  (((dontCareBits implicant.2 num_vars).sublists).map
    (fun s => implicant.1 ||| orBits s)).toFinset


/-! ### Exact cover solver (`essential_prime_implicant_cover`) -/

/-- The coverage dict `{pi: get_covered_minterms(pi, num_vars) & minterms}`,
as its insertion-ordered item list (keys in first-occurrence order). -/
def coverageItems (pis : List (ℕ × ℕ)) (minterms : Finset ℕ) (num_vars : ℕ) :
    List ((ℕ × ℕ) × Finset ℕ) :=
  (dedupF [] pis).map (fun pi => (pi, get_covered_minterms pi num_vars ∩ minterms))

/-- The essential-extraction loop: for each target minterm covered by exactly
one implicant, record that implicant (once) and the minterms it covers.
Returns `(essential, covered_by_essential)`. -/
def essentialPair (covItems : List ((ℕ × ℕ) × Finset ℕ)) (sortedM : List ℕ) :
    List (ℕ × ℕ) × Finset ℕ :=
  sortedM.foldl
    (fun acc m =>
      match covItems.filter (fun pc => m ∈ pc.2) with
      | [pc] => if pc.1 ∈ acc.1 then acc else (acc.1 ++ [pc.1], acc.2 ∪ pc.2)
      | _ => acc)
    ([], ∅)

/-- Index of implicant `pi` in `pi_list` under the source's
`index_of = {pi: i for i, pi in enumerate(pi_list)}` (a later index wins). -/
def indexOfPi (pis : List (ℕ × ℕ)) (pi : ℕ × ℕ) : ℕ := (lastIdx? pis pi).getD 0

/-- `literal_counts`: number of 1 bits of each implicant's mask. -/
def litCounts (pis : List (ℕ × ℕ)) : List ℕ := pis.map (fun pi => popcount pi.2)

/-- Build the Petrick clauses: for each still-uncovered minterm, the set of
indices of implicants covering it, minus the essential indices; minterms
with an empty index set are silently skipped (`continue`). -/
def buildClauses (covItems : List ((ℕ × ℕ) × Finset ℕ)) (pis : List (ℕ × ℕ))
    (essential : List (ℕ × ℕ)) (sortedRem : List ℕ) : List (Finset ℕ) :=
  let essentialIdx : Finset ℕ :=
    essential.foldl
      (fun s epi => match lastIdx? pis epi with
        | some i => insert i s
        | none => s) ∅
  sortedRem.foldl
    (fun cls m =>
      let idxs : Finset ℕ :=
        (covItems.filter (fun pc => m ∈ pc.2)).foldl
          (fun s pc => insert (indexOfPi pis pc.1) s) ∅
      if idxs = ∅ then cls
      else
        let idxs2 := idxs \ essentialIdx
        if idxs2 = ∅ then cls else cls ++ [idxs2])
    []

/-- The `essential_idx` set of `buildClauses` (named for reasoning). -/
def essentialIdxSet (pis : List (ℕ × ℕ)) (essential : List (ℕ × ℕ)) : Finset ℕ :=
  essential.foldl
    (fun s epi => match lastIdx? pis epi with
      | some i => insert i s
      | none => s) ∅

/-- The per-minterm index set of `buildClauses` (named for reasoning). -/
def clauseIdxs (covItems : List ((ℕ × ℕ) × Finset ℕ)) (pis : List (ℕ × ℕ))
    (m : ℕ) : Finset ℕ :=
  (covItems.filter (fun pc => m ∈ pc.2)).foldl
    (fun s pc => insert (indexOfPi pis pc.1) s) ∅

/-- Sorting key order used by `reduce_products`: `(len(s), literal sum)`,
with the canonical ascending-tuple order as a tie-break (CPython's tie order
among equal keys is its unspecified set order; ties are incomparable sets,
so the surviving collection does not depend on it). -/
def prodLe (litcounts : List ℕ) (p q : Finset ℕ) : Bool :=
  let cp := (p.card, p.sum (fun i => litcounts.getD i 0))
  let cq := (q.card, q.sum (fun i => litcounts.getD i 0))
  if cp.1 < cq.1 then true
  else if cq.1 < cp.1 then false
  else if cp.2 < cq.2 then true
  else if cq.2 < cp.2 then false
  else lexLtN (ascList p) (ascList q) || ascList p = ascList q

/-- `reduce_products`: drop every product that contains another product
(set-containment absorption), scanning in sorted order. -/
def reduce_products (litcounts : List ℕ) (prods : List (Finset ℕ)) : List (Finset ℕ) :=
  (insSort (prodLe litcounts) prods).foldl
    (fun minimal p => if minimal.any (fun q => q ⊆ p) then minimal else minimal ++ [p]) []

/-- Cross the current products with one clause, then absorb. -/
def petrickStep (litcounts : List ℕ) (products : List (Finset ℕ)) (clause : Finset ℕ) :
    List (Finset ℕ) :=
  reduce_products litcounts
    (products.flatMap (fun p => (ascList clause).map (fun idx => insert idx p)))

/-- Petrick's method: fold the clauses over `products = {frozenset()}`.
(The source's in-loop `if not products: return essential` is equivalent to
the emptiness check after the loop, since an empty collection propagates.) -/
def petrickProducts (litcounts : List ℕ) (clauses : List (Finset ℕ)) : List (Finset ℕ) :=
  clauses.foldl (petrickStep litcounts) [∅]

/-- `product_cost(p) = (len(p), sum(literal_counts[i] for i in p))`. -/
def product_cost (litcounts : List ℕ) (p : Finset ℕ) : ℕ × ℕ :=
  (p.card, p.sum (fun i => litcounts.getD i 0))

/-- Strict lexicographic order on cost pairs (Python tuple `<`). -/
def costLt (a b : ℕ × ℕ) : Bool := a.1 < b.1 || (a.1 = b.1 && a.2 < b.2)

/-- Final product selection: cheapest cost, then lexicographically smallest
sorted index tuple (`min(best_products, key=lambda p: tuple(sorted(p)))`). -/
def chooseProduct (litcounts : List ℕ) (products : List (Finset ℕ)) : Finset ℕ :=
  let best_cost := pyMin costLt (0, 0) (products.map (product_cost litcounts))
  let best_products := products.filter (fun p => product_cost litcounts p = best_cost)
  pyMin (fun p q => lexLtN (ascList p) (ascList q)) ∅ best_products

/-- `essential_prime_implicant_cover(prime_implicants, minterms, num_vars)`. -/
def essential_prime_implicant_cover (pis : List (ℕ × ℕ)) (minterms : Finset ℕ)
    (num_vars : ℕ) : List (ℕ × ℕ) :=
  if pis = [] ∨ minterms = ∅ then pis
  else
    let covItems := coverageItems pis minterms num_vars
    let ess := essentialPair covItems (ascList minterms)
    let remaining := minterms \ ess.2
    if remaining = ∅ then ess.1
    else
      let clauses := buildClauses covItems pis ess.1 (ascList remaining)
      if clauses = [] then ess.1
      else
        let products := petrickProducts (litCounts pis) clauses
        if products = [] then ess.1
        else
          let chosen := chooseProduct (litCounts pis) products
          ess.1 ++ (ascList chosen).map (fun i => pis.getD i (0, 0))


/-! ### Canonical formatter (`implicant_to_expr` and the tail of
`minimize_karnaugh`) -/

/-- The `factors` list of `implicant_to_expr`: the variables whose mask bit
and term bit are both 1 (variable `i` lives at bit `len(variables)-1-i`). -/
def implicantLetters (implicant : ℕ × ℕ) (vars : List Char) : List Char :=
  let n := vars.length
  (vars.enum.filter
    (fun iv => tbit implicant.2 (n - 1 - iv.1) && tbit implicant.1 (n - 1 - iv.1))).map Prod.snd

/-- `implicant_to_expr(implicant, variables)`: one bracket group with the
qualifying variables; empty when no variable qualifies. -/
def implicant_to_expr (implicant : ℕ × ℕ) (vars : List Char) : String :=
  let factors := implicantLetters implicant vars
  if factors = [] then "" else "[" ++ (⟨factors⟩ : String) ++ "]"

/-- `a` is a proper front segment of `b` (the failure case of letter-string
versus bracketed-string ordering). -/
def frontOf (a b : List Char) : Bool := a.length < b.length && b.take a.length = a

/-- The formatting tail of `minimize_karnaugh`: convert the cover to bracket
groups, drop empty ones, sort the group strings, concatenate. -/
def formatCover (cover : List (ℕ × ℕ)) (vars : List Char) : String :=
  let terms := (cover.map (fun pi => implicant_to_expr pi vars)).filter (fun e => e ≠ "")
  (insSort strLe terms).foldl (fun acc t => acc ++ t) ""

/-! ### `minimize_karnaugh` and `compute_kmap` -/

/-- `minimize_karnaugh(minterms, variables)`. -/
def minimize_karnaugh (minterms : Finset ℕ) (vars : List Char) : String :=
  if minterms = ∅ then ""
  else if 6 < vars.length then ""
  else
    let prime_implicants := find_prime_implicants minterms
    if prime_implicants = [] then ""
    else formatCover
      (essential_prime_implicant_cover prime_implicants minterms vars.length) vars

/-- The inner reset-shift loop of `compute_kmap`: map the bits of a reset
minterm (over the universe without `P`) onto the non-`P` positions of the
full universe, in order. -/
def shiftReset (vars : List Char) (reset_term : ℕ) : ℕ :=
  let n := vars.length
  let np := (vars.filter (fun v => v ≠ 'P')).length
  (vars.enum.foldl
    (fun acc iv =>
      if iv.2 ≠ 'P' then
        (if tbit reset_term (np - 1 - acc.2) then acc.1 ||| (1 <<< (n - 1 - iv.1)) else acc.1,
          acc.2 + 1)
      else acc)
    (0, 0)).1

/-- The substitution loop of `compute_kmap`: every base minterm with the `P`
bit set is replaced by the shifted reset minterms OR-ed onto the minterm
without its `P` bit; minterms without the `P` bit pass through. -/
def expandMinterms (base reset : Finset ℕ) (vars : List Char) : Finset ℕ :=
  if 'P' ∈ vars then
    let p_bit := 1 <<< (vars.length - 1 - vars.indexOf 'P')
    base.biUnion (fun minterm =>
      if minterm &&& p_bit ≠ 0 then
        reset.image (fun reset_term => ldiffN minterm p_bit ||| shiftReset vars reset_term)
      else {minterm})
  else base

/-- The combined variable universe of the two expressions, sorted
(`variables = sorted(list(all_vars))`). -/
def kmapVariables (base_expr reset_expr : Option String) : List Char :=
  sortedDedupCh (extractLetters base_expr ++ extractLetters reset_expr)

/-- `compute_kmap(base_expr, reset_expr)`. -/
def compute_kmap (base_expr reset_expr : Option String) : String :=
  let vars := kmapVariables base_expr reset_expr
  if vars = [] then ""
  else
    let base_minterms := parse_expr_to_minterms base_expr vars
    let final_minterms :=
      if 'P' ∈ vars ∧ truthy reset_expr then
        expandMinterms base_minterms
          (parse_expr_to_minterms reset_expr (vars.filter (fun v => v ≠ 'P'))) vars
      else base_minterms
    minimize_karnaugh final_minterms vars


/-! ### Closed computations deciding several claims -/

/-- C1 (counterexample): for `s = "[ABCDEFG]"` (an induced universe of 7
variables) the full pipeline returns the empty string, so parsing its output
over the same universe does not reproduce the minterm set of `parse(s)`. -/
theorem claim1_cex :
    parse_expr_to_minterms
        (some (minimize_karnaugh
          (parse_expr_to_minterms (some "[ABCDEFG]") (extract_variables (some "[ABCDEFG]")))
          (extract_variables (some "[ABCDEFG]"))))
        (extract_variables (some "[ABCDEFG]")) ≠
      parse_expr_to_minterms (some "[ABCDEFG]") (extract_variables (some "[ABCDEFG]")) := by
  decide

/-- C2 (counterexample): with prime implicant `(1,1)` and target `{0,1}`
over one variable, minterm `0` is covered by no prime implicant, yet the
solver returns normally with the cover `[(1,1)]`, which does not cover `0`:
the uncoverable minterm is silently skipped, no defect is signalled. -/
theorem claim2_cex :
    (0 : ℕ) ∈ ({0, 1} : Finset ℕ) ∧
    (∀ pi ∈ [((1 : ℕ), (1 : ℕ))], (0 : ℕ) ∉ get_covered_minterms pi 1) ∧
    essential_prime_implicant_cover [(1, 1)] {0, 1} 1 = [(1, 1)] ∧
    (0 : ℕ) ∉ get_covered_minterms (1, 1) 1 := by decide

/-- C3 (counterexample): the generation-zero implicants `(2,2)` and `(3,3)`
have different relevance masks, and their differing bit (bit 0) is not
relevant in the first mask; still the finder merges them (both are marked
used and the combined cube is produced), so implicants are not merged "only
if they share the same relevance mask and differ in a bit relevant in
both". -/
theorem claim3_cex :
    ((2 : ℕ), (2 : ℕ)).2 ≠ ((3 : ℕ), (3 : ℕ)).2 ∧
    adjacent_cells 2 3 = true ∧
    tbit 2 0 = false ∧ tbit 3 0 = true ∧
    mergePass [(2, 2), (3, 3)] = ([(2, 2)], ({2, 3} : Finset ℕ)) ∧
    find_prime_implicants {2, 3} = [(2, 2)] := by decide

/-- C4 (counterexample): the generation-zero implicant built from minterm
`2` over a 2-variable universe is `(2,2)`, and it covers `{2,3}`, not the
single minterm `{2}`: the mask equals the minterm, so the minterm's 0 bits
are don't-cares, not fully specified bits. -/
theorem claim4_cex :
    initialLevel {2} = [(2, 2)] ∧
    get_covered_minterms (2, 2) 2 = {2, 3} ∧
    ({2, 3} : Finset ℕ) ≠ ({2} : Finset ℕ) := by decide

/-- C5 (counterexample): the bracket group `"[A B]"`, whose letters are
separated by an interior space, is not recognized at all — it yields no
group and hence no Term, while `"[AB]"` yields the Term `{A,B}`. -/
theorem claim5_cex :
    findallGroups "[A B]".data = [] ∧
    parse_expr_to_minterms (some "[A B]") ['A', 'B'] = ∅ ∧
    parse_expr_to_minterms (some "[AB]") ['A', 'B'] = {3} := by decide

/-- C9 (counterexample): on the cover `[(7,7),(4,4)]` over universe
`A,B,C` the formatter emits `"[ABC][A]"`: the groups appear with letter
strings `ABC` before `A`, which is not ascending letter-string order
(the sort compares the full bracketed strings, and `']' > 'A'`). -/
theorem claim9_cex :
    formatCover [(7, 7), (4, 4)] ['A', 'B', 'C'] = "[ABC][A]" ∧
    findallGroups "[ABC][A]".data = [['A', 'B', 'C'], ['A']] ∧
    lexLeCh ['A', 'B', 'C'] ['A'] = false := by decide

/-- C8: minimizing primary `[P]` with secondary `[Q]` builds the universe
`[P,Q]`; the primary minterms are `{2,3}` (the `P=1` rows); substitution
replaces them using the secondary minterm set `{1}` of `[Q]` over `[Q]`,
yielding the final minterm set `{1}` (`Q=1`, `P=0`); the canonical output
is `"[Q]"`. -/
theorem claim8_thm :
    kmapVariables (some "[P]") (some "[Q]") = ['P', 'Q'] ∧
    parse_expr_to_minterms (some "[P]") ['P', 'Q'] = {2, 3} ∧
    parse_expr_to_minterms (some "[Q]") ['Q'] = {1} ∧
    expandMinterms {2, 3} {1} ['P', 'Q'] = {1} ∧
    compute_kmap (some "[P]") (some "[Q]") = "[Q]" := by decide

/-! ### Helper lemmas: `ascList` and `pyMin` -/

lemma mem_ascList {s : Finset ℕ} {x : ℕ} : x ∈ ascList s ↔ x ∈ s := by
  unfold ascList
  simp only [List.mem_filter, List.mem_range, decide_eq_true_eq]
  constructor
  · exact fun h => h.2
  · intro hx
    refine ⟨?_, hx⟩
    have h2 : id x ≤ s.sup id := Finset.le_sup hx
    simpa using Nat.lt_succ_of_le h2

lemma ascList_sorted (s : Finset ℕ) : (ascList s).Sorted (· < ·) := by
  unfold ascList
  exact (List.pairwise_lt_range _).filter _

lemma ascList_nodup (s : Finset ℕ) : (ascList s).Nodup := (ascList_sorted s).nodup

lemma sorted_lt_eq_of_mem_iff {l1 l2 : List ℕ} (s1 : l1.Sorted (· < ·))
    (s2 : l2.Sorted (· < ·)) (h : ∀ x, x ∈ l1 ↔ x ∈ l2) : l1 = l2 := by
  haveI : IsAntisymm ℕ (· < ·) := ⟨fun a b h1 h2 => absurd h1 (Nat.lt_asymm h2)⟩
  exact List.eq_of_perm_of_sorted
    ((List.perm_ext_iff_of_nodup s1.nodup s2.nodup).2 h) s1 s2

lemma ascList_injective {s t : Finset ℕ} (h : ascList s = ascList t) : s = t := by
  ext x
  rw [← mem_ascList, h, mem_ascList]

lemma ascList_erase (s : Finset ℕ) (m : ℕ) :
    ascList (s.erase m) = (ascList s).filter (fun x => x ≠ m) := by
  refine sorted_lt_eq_of_mem_iff (ascList_sorted _) ((ascList_sorted s).filter _) ?_
  intro x
  simp only [mem_ascList, Finset.mem_erase, List.mem_filter, decide_eq_true_eq]
  tauto

lemma foldl_min_mem {f : α → α → Bool} :
    ∀ (xs : List α) (acc : α),
      xs.foldl (fun a x => if f x a then x else a) acc = acc ∨
      xs.foldl (fun a x => if f x a then x else a) acc ∈ xs := by
  intro xs
  induction xs with
  | nil => intro acc; left; rfl
  | cons x xs ih =>
    intro acc
    rcases ih (if f x acc then x else acc) with h | h
    · rw [List.foldl_cons, h]
      split
      · right; exact List.mem_cons_self _ _
      · left; rfl
    · right; exact List.mem_cons_of_mem _ h

lemma pyMin_mem (lt : α → α → Bool) (dflt : α) (l : List α) (h : l ≠ []) :
    pyMin lt dflt l ∈ l := by
  cases l with
  | nil => exact absurd rfl h
  | cons a as =>
    simp only [pyMin]
    rcases foldl_min_mem as a with h2 | h2
    · rw [h2]; exact List.mem_cons_self _ _
    · exact List.mem_cons_of_mem _ h2

lemma foldl_min_invariant {f : α → α → Bool}
    (h_tr : ∀ a b c, f a b = true → f b c = true → f a c = true)
    (h_irr : ∀ a, f a a = false) :
    ∀ (xs : List α) (acc : α),
      (xs.foldl (fun a x => if f x a then x else a) acc = acc ∨
        f (xs.foldl (fun a x => if f x a then x else a) acc) acc = true) ∧
      (∀ y ∈ xs, f y (xs.foldl (fun a x => if f x a then x else a) acc) = false) ∧
      f acc (xs.foldl (fun a x => if f x a then x else a) acc) = false := by
  intro xs
  induction xs with
  | nil => exact fun acc => ⟨Or.inl rfl, by simp, h_irr acc⟩
  | cons x xs ih =>
    intro acc
    rw [List.foldl_cons]
    obtain ⟨chain, hall, hacc'⟩ := ih (if f x acc then x else acc)
    set res := xs.foldl (fun a x => if f x a then x else a) (if f x acc then x else acc)
      with hresdef
    by_cases hx : f x acc = true
    · rw [if_pos hx] at chain hacc'
      have hchain : res = acc ∨ f res acc = true := by
        rcases chain with h | h
        · right; rw [h]; exact hx
        · right; exact h_tr _ _ _ h hx
      refine ⟨hchain, ?_, ?_⟩
      · intro y hy
        rcases List.mem_cons.1 hy with rfl | hmem
        · exact hacc'
        · exact hall y hmem
      · by_contra hc
        have hc' : f acc res = true := by revert hc; cases f acc res <;> simp
        rcases chain with h | h
        · rw [h] at hc'
          exact absurd (h_tr _ _ _ hc' hx) (by rw [h_irr acc]; simp)
        · exact absurd (h_tr _ _ _ (h_tr _ _ _ hc' h) hx) (by rw [h_irr acc]; simp)
    · have hx' : f x acc = false := by revert hx; cases f x acc <;> simp
      rw [if_neg (by rw [hx']; simp)] at chain hacc'
      refine ⟨chain, ?_, hacc'⟩
      intro y hy
      rcases List.mem_cons.1 hy with rfl | hmem
      · by_contra hc
        have hc' : f y res = true := by revert hc; cases f y res <;> simp
        rcases chain with h | h
        · rw [h] at hc'; rw [hc'] at hx'; cases hx'
        · have := h_tr _ _ _ hc' h
          rw [this] at hx'; cases hx'
      · exact hall y hmem

lemma pyMin_not_lt {f : α → α → Bool}
    (h_tr : ∀ a b c, f a b = true → f b c = true → f a c = true)
    (h_irr : ∀ a, f a a = false) (dflt : α) (l : List α) :
    ∀ x ∈ l, f x (pyMin f dflt l) = false := by
  cases l with
  | nil => simp
  | cons a as =>
    intro x hx
    obtain ⟨_, hall, hacc⟩ := foldl_min_invariant h_tr h_irr as a
    rcases List.mem_cons.1 hx with rfl | hmem
    · exact hacc
    · exact hall x hmem

lemma costLt_trans : ∀ a b c : ℕ × ℕ, costLt a b = true → costLt b c = true →
    costLt a c = true := by
  intro a b c h1 h2
  simp only [costLt, Bool.or_eq_true, decide_eq_true_eq, Bool.and_eq_true] at h1 h2 ⊢
  rcases h1 with h1 | ⟨h1e, h1l⟩ <;> rcases h2 with h2 | ⟨h2e, h2l⟩
  · exact Or.inl (h1.trans h2)
  · exact Or.inl (h2e ▸ h1)
  · exact Or.inl (h1e ▸ h2)
  · exact Or.inr ⟨h1e.trans h2e, h1l.trans h2l⟩

lemma costLt_irrefl : ∀ a : ℕ × ℕ, costLt a a = false := by
  intro a; simp [costLt]

lemma lexLtN_iff_lex : ∀ a b : List ℕ, lexLtN a b = true ↔ List.Lex (· < ·) a b := by
  intro a
  induction a with
  | nil =>
    intro b
    cases b with
    | nil => simp [lexLtN, List.Lex.not_nil_right]
    | cons y ys => simp [lexLtN]; exact List.Lex.nil
  | cons x xs ih =>
    intro b
    cases b with
    | nil => simp [lexLtN, List.Lex.not_nil_right]
    | cons y ys =>
      simp only [lexLtN]
      rcases Nat.lt_trichotomy x y with h | rfl | h
      · rw [if_pos h]
        simp only [true_iff]
        exact List.Lex.rel h
      · rw [if_neg (Nat.lt_irrefl x), if_neg (Nat.lt_irrefl x)]
        rw [ih ys]
        constructor
        · exact fun h2 => List.Lex.cons h2
        · intro h2
          cases h2 with
          | cons h3 => exact h3
          | rel h3 => exact absurd h3 (Nat.lt_irrefl x)
      · rw [if_neg (Nat.lt_asymm h), if_pos h]
        simp only [Bool.false_eq_true, false_iff]
        intro h2
        cases h2 with
        | cons h3 => exact Nat.lt_irrefl x h
        | rel h3 => exact Nat.lt_asymm h h3

lemma lexLtN_trans : ∀ a b c : List ℕ, lexLtN a b = true → lexLtN b c = true →
    lexLtN a c = true := by
  intro a b c h1 h2
  rw [lexLtN_iff_lex] at h1 h2 ⊢
  haveI := List.Lex.isStrictTotalOrder ((· < ·) : ℕ → ℕ → Prop)
  exact trans_of (List.Lex ((· < ·) : ℕ → ℕ → Prop)) h1 h2

lemma lexLtN_irrefl : ∀ a : List ℕ, lexLtN a a = false := by
  intro a
  by_contra h
  have h2 : lexLtN a a = true := by revert h; cases lexLtN a a <;> simp
  rw [lexLtN_iff_lex] at h2
  haveI := List.Lex.isStrictTotalOrder ((· < ·) : ℕ → ℕ → Prop)
  exact irrefl_of (List.Lex ((· < ·) : ℕ → ℕ → Prop)) a h2

lemma lexLtN_total : ∀ a b : List ℕ, lexLtN a b = false → lexLtN b a = false → a = b := by
  intro a b h1 h2
  haveI := List.Lex.isStrictTotalOrder ((· < ·) : ℕ → ℕ → Prop)
  rcases trichotomous_of (List.Lex ((· < ·) : ℕ → ℕ → Prop)) a b with h | h | h
  · rw [← lexLtN_iff_lex] at h; rw [h] at h1; cases h1
  · exact h
  · rw [← lexLtN_iff_lex] at h; rw [h] at h2; cases h2

/-- C7: among the surviving products of Petrick's method, the solver picks a
member of the collection whose cost pair (implicant count, total literal
count, the literal count being the popcount of the implicant's mask) is
minimal in lexical priority; among equal-cost products its sorted index
tuple is lexicographically least; and any equal-cost product with the same
sorted tuple is the chosen product itself (so the choice, and hence the
returned cover, is a deterministic function of the inputs). -/
theorem claim7_thm (pis : List (ℕ × ℕ)) (products : List (Finset ℕ))
    (h : products ≠ []) :
    chooseProduct (litCounts pis) products ∈ products ∧
    (∀ q ∈ products,
      costLt (product_cost (litCounts pis) q)
        (product_cost (litCounts pis) (chooseProduct (litCounts pis) products)) = false) ∧
    (∀ q ∈ products,
      product_cost (litCounts pis) q =
          product_cost (litCounts pis) (chooseProduct (litCounts pis) products) →
        lexLtN (ascList q) (ascList (chooseProduct (litCounts pis) products)) = false) ∧
    (∀ q ∈ products,
      ascList q = ascList (chooseProduct (litCounts pis) products) →
        q = chooseProduct (litCounts pis) products) := by
  have hlex_tr : ∀ p q r : Finset ℕ,
      lexLtN (ascList p) (ascList q) = true → lexLtN (ascList q) (ascList r) = true →
      lexLtN (ascList p) (ascList r) = true :=
    fun p q r h1 h2 => lexLtN_trans _ _ _ h1 h2
  have hlex_irr : ∀ p : Finset ℕ, lexLtN (ascList p) (ascList p) = false :=
    fun p => lexLtN_irrefl _
  have hmapne : products.map (product_cost (litCounts pis)) ≠ [] := by
    intro hc
    exact h (List.map_eq_nil_iff.1 hc)
  have hbestmem := pyMin_mem costLt (0, 0) (products.map (product_cost (litCounts pis))) hmapne
  obtain ⟨p0, hp0, hp0c⟩ := List.mem_map.1 hbestmem
  have hp0bp : p0 ∈ products.filter
      (fun p => product_cost (litCounts pis) p =
        pyMin costLt (0, 0) (products.map (product_cost (litCounts pis)))) := by
    refine List.mem_filter.2 ⟨hp0, ?_⟩
    simp [hp0c]
  have hbpne : products.filter
      (fun p => product_cost (litCounts pis) p =
        pyMin costLt (0, 0) (products.map (product_cost (litCounts pis)))) ≠ [] :=
    List.ne_nil_of_mem hp0bp
  have hch_mem_bp : chooseProduct (litCounts pis) products ∈ products.filter
      (fun p => product_cost (litCounts pis) p =
        pyMin costLt (0, 0) (products.map (product_cost (litCounts pis)))) := by
    unfold chooseProduct
    exact pyMin_mem _ _ _ hbpne
  have hch_mem : chooseProduct (litCounts pis) products ∈ products :=
    (List.mem_filter.1 hch_mem_bp).1
  have hch_cost : product_cost (litCounts pis) (chooseProduct (litCounts pis) products) =
      pyMin costLt (0, 0) (products.map (product_cost (litCounts pis))) := by
    have h2 := (List.mem_filter.1 hch_mem_bp).2
    simpa using h2
  refine ⟨hch_mem, ?_, ?_, ?_⟩
  · intro q hq
    rw [hch_cost]
    exact pyMin_not_lt costLt_trans costLt_irrefl (0, 0) _ _ (List.mem_map_of_mem _ hq)
  · intro q hq hqc
    have hq_bp : q ∈ products.filter
        (fun p => product_cost (litCounts pis) p =
          pyMin costLt (0, 0) (products.map (product_cost (litCounts pis)))) := by
      refine List.mem_filter.2 ⟨hq, ?_⟩
      rw [hqc] at *
      simp [hch_cost]
    have := pyMin_not_lt hlex_tr hlex_irr ∅ _ _ hq_bp
    unfold chooseProduct
    exact this
  · intro q _ hasc
    exact ascList_injective hasc

/-- C7 (witness): the selection theorem applied at a concrete product list. -/
theorem claim7_witness :
    ([({0} : Finset ℕ)] ≠ ([] : List (Finset ℕ))) ∧
    chooseProduct (litCounts [((1 : ℕ), (1 : ℕ))]) [{0}] ∈ [({0} : Finset ℕ)] :=
  ⟨by decide, (claim7_thm [(1, 1)] [{0}] (by decide)).1⟩

/-- C10: supplying the placeholder secondary `"-"` (truthy, but parsing to
no terms) with pivot `P` in the universe still triggers substitution with an
empty secondary minterm set, so every primary minterm with the `P` bit set
is discarded with nothing added: `compute_kmap("[P]", "-") = ""`, while
`compute_kmap("[P]", None) = "[P]"`; in general, substitution with an empty
secondary set keeps exactly the primary minterms whose pivot bit is 0. -/
theorem claim10_thm :
    compute_kmap (some "[P]") (some "-") = "" ∧
    compute_kmap (some "[P]") none = "[P]" ∧
    ∀ (base : Finset ℕ) (vars : List Char), 'P' ∈ vars →
      expandMinterms base ∅ vars =
        base.filter (fun m => m &&& (1 <<< (vars.length - 1 - vars.indexOf 'P')) = 0) := by
  refine ⟨by decide, by decide, ?_⟩
  intro base vars hP
  unfold expandMinterms
  rw [if_pos hP]
  ext x
  simp only [Finset.mem_biUnion, Finset.mem_filter]
  constructor
  · rintro ⟨m, hm, hx⟩
    by_cases hbit : m &&& (1 <<< (vars.length - 1 - vars.indexOf 'P')) ≠ 0
    · rw [if_pos hbit] at hx
      simp at hx
    · rw [if_neg hbit] at hx
      have hx' : x = m := by simpa using hx
      subst hx'
      refine ⟨hm, ?_⟩
      by_contra hc
      exact hbit hc
  · rintro ⟨hx, hbit⟩
    refine ⟨x, hx, ?_⟩
    rw [if_neg (by simp [hbit])]
    simp

/-- C10 (witness): the substitution-with-empty-secondary theorem applied at
a concrete minterm set and universe. -/
theorem claim10_witness :
    'P' ∈ (['P', 'Q'] : List Char) ∧
    expandMinterms {1, 2} ∅ ['P', 'Q'] =
      ({1, 2} : Finset ℕ).filter
        (fun m => m &&& (1 <<< ((['P', 'Q'] : List Char).length - 1 -
          (['P', 'Q'] : List Char).indexOf 'P')) = 0) :=
  ⟨by decide, claim10_thm.2.2 {1, 2} ['P', 'Q'] (by decide)⟩

/-- C6: whenever the variable universe exceeds 6 variables,
`minimize_karnaugh` returns the empty string without attempting the search,
for any minterm set; at exactly 6 variables the search is attempted and can
return a non-empty cover; at 7 it returns the empty string. -/
theorem claim6_thm :
    (∀ (minterms : Finset ℕ) (vars : List Char), 6 < vars.length →
      minimize_karnaugh minterms vars = "") ∧
    minimize_karnaugh {63} ['A', 'B', 'C', 'D', 'E', 'F'] = "[ABCDEF]" ∧
    minimize_karnaugh {127} ['A', 'B', 'C', 'D', 'E', 'F', 'G'] = "" := by
  refine ⟨?_, by decide, by decide⟩
  intro m v h
  unfold minimize_karnaugh
  by_cases hm : m = ∅
  · rw [if_pos hm]
  · rw [if_neg hm, if_pos h]

/-- C6 (witness): the bound theorem applied at a concrete 7-variable
universe. -/
theorem claim6_witness :
    6 < (['A', 'B', 'C', 'D', 'E', 'F', 'G'] : List Char).length ∧
    minimize_karnaugh {5} ['A', 'B', 'C', 'D', 'E', 'F', 'G'] = "" :=
  ⟨by decide, claim6_thm.1 {5} _ (by decide)⟩

/-! ### Scanner lemmas (for the parser claims and the round trip) -/

lemma dropWhile_append_all {α : Type} {p : α → Bool} :
    ∀ (l m : List α), (∀ c ∈ l, p c = true) → List.dropWhile p (l ++ m) = List.dropWhile p m := by
  intro l
  induction l with
  | nil => intro m _; rfl
  | cons a as ih =>
    intro m h
    rw [List.cons_append, List.dropWhile_cons, if_pos (h a (List.mem_cons_self _ _))]
    exact ih m (fun c hc => h c (List.mem_cons_of_mem _ hc))

lemma takeWhile_append_all {α : Type} {p : α → Bool} :
    ∀ (l m : List α), (∀ c ∈ l, p c = true) → List.takeWhile p (l ++ m) = l ++ List.takeWhile p m := by
  intro l
  induction l with
  | nil => intro m _; rfl
  | cons a as ih =>
    intro m h
    rw [List.cons_append, List.takeWhile_cons, if_pos (h a (List.mem_cons_self _ _))]
    rw [ih m (fun c hc => h c (List.mem_cons_of_mem _ hc)), List.cons_append]

lemma upper_not_space {c : Char} (h : isUpperAZ c = true) : isPySpace c = false := by
  by_contra hc
  have hc' : isPySpace c = true := by revert hc; cases isPySpace c <;> simp
  simp only [isPySpace, Bool.or_eq_true, decide_eq_true_eq] at hc'
  rcases hc' with ((((h1 | h1) | h1) | h1) | h1) | h1 <;>
    (subst h1; exact absurd h (by decide))

lemma matchGroup_spec (ws1 letters ws2 rest : List Char)
    (hws1 : ∀ c ∈ ws1, isPySpace c = true) (hws2 : ∀ c ∈ ws2, isPySpace c = true)
    (hne : letters ≠ []) (hup : ∀ c ∈ letters, isUpperAZ c = true) :
    matchGroup (ws1 ++ letters ++ ws2 ++ ']' :: rest) = some (letters, rest) := by
  cases letters with
  | nil => exact absurd rfl hne
  | cons a as =>
    have hupa : isUpperAZ a = true := hup a (List.mem_cons_self _ _)
    have e1 : ((ws1 ++ (a :: as) ++ ws2 ++ ']' :: rest).dropWhile isPySpace) =
        a :: (as ++ ws2 ++ ']' :: rest) := by
      rw [List.append_assoc, List.append_assoc]
      rw [dropWhile_append_all ws1 _ hws1]
      rw [List.cons_append, List.dropWhile_cons, if_neg (by rw [upper_not_space hupa]; simp)]
      rw [List.append_assoc]
    have e2 : List.takeWhile isUpperAZ (a :: (as ++ ws2 ++ ']' :: rest)) = a :: as := by
      rw [List.takeWhile_cons, if_pos hupa, List.append_assoc]
      rw [takeWhile_append_all as _ (fun c hc => hup c (List.mem_cons_of_mem _ hc))]
      have : List.takeWhile isUpperAZ (ws2 ++ ']' :: rest) = [] := by
        cases ws2 with
        | nil =>
          rw [List.nil_append, List.takeWhile_cons, if_neg (by decide)]
        | cons w wsr =>
          rw [List.cons_append, List.takeWhile_cons, if_neg ?_]
          have hw : isPySpace w = true := hws2 w (List.mem_cons_self _ _)
          intro hcw
          have : isPySpace w = false := upper_not_space hcw
          rw [hw] at this; cases this
      rw [this, List.append_nil]
    have e3 : List.dropWhile isUpperAZ (a :: (as ++ ws2 ++ ']' :: rest)) =
        ws2 ++ ']' :: rest := by
      rw [List.dropWhile_cons, if_pos hupa, List.append_assoc]
      rw [dropWhile_append_all as _ (fun c hc => hup c (List.mem_cons_of_mem _ hc))]
      cases ws2 with
      | nil =>
        rw [List.nil_append, List.dropWhile_cons, if_neg (by decide)]
      | cons w wsr =>
        rw [List.cons_append, List.dropWhile_cons, if_neg ?_]
        have hw : isPySpace w = true := hws2 w (List.mem_cons_self _ _)
        intro hcw
        have : isPySpace w = false := upper_not_space hcw
        rw [hw] at this; cases this
    have e4 : List.dropWhile isPySpace (ws2 ++ ']' :: rest) = ']' :: rest := by
      rw [dropWhile_append_all ws2 _ hws2, List.dropWhile_cons, if_neg (by decide)]
    simp only [matchGroup, e1, e2, e3, e4]

lemma matchGroup_length {cs l r : List Char} (h : matchGroup cs = some (l, r)) :
    r.length < cs.length := by
  simp only [matchGroup] at h
  split at h
  · cases h
  · rename_i letters0 cs20 hd0 tl0 rst0 heq1 heq2
    have h2 := Option.some.inj h
    have hr : rst0 = r := congrArg Prod.snd h2
    subst hr
    have hchain :
        (((cs.dropWhile isPySpace).dropWhile isUpperAZ).dropWhile isPySpace).Sublist cs :=
      ((List.dropWhile_sublist _).trans (List.dropWhile_sublist _)).trans
        (List.dropWhile_sublist _)
    have hlen := hchain.length_le
    rw [heq2] at hlen
    simp only [List.length_cons] at hlen
    omega
  · cases h

lemma scanFuel_stable : ∀ (f : ℕ) (cs : List Char), cs.length ≤ f →
    scanFuel f cs = findallGroups cs := by
  intro f
  induction f using Nat.strong_induction_on with
  | _ f ih =>
    intro cs hlen
    match f, cs with
    | 0, [] => rfl
    | 0, c :: rest => simp at hlen
    | g + 1, [] =>
      show ([] : List (List Char)) = findallGroups []
      rfl
    | g + 1, c :: rest =>
      have hrest : rest.length ≤ g := by simpa using hlen
      have hung : findallGroups (c :: rest) = scanFuel (rest.length + 1) (c :: rest) := by
        unfold findallGroups
        rfl
      rw [hung]
      show scanFuel (g + 1) (c :: rest) = scanFuel (rest.length + 1) (c :: rest)
      by_cases hc : c = '['
      · subst hc
        cases hm : matchGroup rest with
        | none =>
          simp only [scanFuel, hm, if_pos rfl, if_true]
          rw [ih g (by omega) rest hrest,
            ih rest.length (by omega) rest (le_refl _)]
        | some lr =>
          obtain ⟨letters, rest2⟩ := lr
          have hr2 : rest2.length < rest.length := matchGroup_length hm
          simp only [scanFuel, hm, if_pos rfl, if_true]
          rw [ih g (by omega) rest2 (by omega),
            ih rest.length (by omega) rest2 (by omega)]
      · simp only [scanFuel, if_neg hc]
        rw [ih g (by omega) rest hrest,
          ih rest.length (by omega) rest (le_refl _)]

lemma findallGroups_group (ws1 letters ws2 rest : List Char)
    (hws1 : ∀ c ∈ ws1, isPySpace c = true) (hws2 : ∀ c ∈ ws2, isPySpace c = true)
    (hne : letters ≠ []) (hup : ∀ c ∈ letters, isUpperAZ c = true) :
    findallGroups ('[' :: (ws1 ++ letters ++ ws2 ++ ']' :: rest)) =
      letters :: findallGroups rest := by
  have hm := matchGroup_spec ws1 letters ws2 rest hws1 hws2 hne hup
  unfold findallGroups
  have hlen : ('[' :: (ws1 ++ letters ++ ws2 ++ ']' :: rest)).length =
      (ws1 ++ letters ++ ws2 ++ ']' :: rest).length + 1 := by simp
  rw [hlen]
  show scanFuel ((ws1 ++ letters ++ ws2 ++ ']' :: rest).length + 1)
      ('[' :: (ws1 ++ letters ++ ws2 ++ ']' :: rest)) = _
  simp only [scanFuel, hm, if_pos rfl, if_true]
  rw [scanFuel_stable _ rest (le_of_lt (matchGroup_length hm))]
  rfl

/-- C5: amended — the parser recognizes every bracket group of the form
`[`, optional whitespace, one or more contiguous uppercase letters,
optional whitespace, `]`, stripping the surrounding whitespace, and yields
the Term of exactly those letters; whitespace between the letters (as in
`"[A B]"`) makes the group unrecognized, so it yields no Term at all. -/
theorem claim5_thm (ws1 letters ws2 rest : List Char)
    (hws1 : ∀ c ∈ ws1, isPySpace c = true) (hws2 : ∀ c ∈ ws2, isPySpace c = true)
    (hne : letters ≠ []) (hup : ∀ c ∈ letters, isUpperAZ c = true) :
    findallGroups ('[' :: (ws1 ++ letters ++ ws2 ++ ']' :: rest)) =
      letters :: findallGroups rest :=
  findallGroups_group ws1 letters ws2 rest hws1 hws2 hne hup

/-- C5 (witness): the group-recognition theorem applied to `"[ AB ]"`. -/
theorem claim5_witness :
    (∀ c ∈ [' '], isPySpace c = true) ∧ (['A', 'B'] ≠ ([] : List Char)) ∧
    (∀ c ∈ ['A', 'B'], isUpperAZ c = true) ∧
    findallGroups ('[' :: ([' '] ++ ['A', 'B'] ++ [' '] ++ ']' :: [])) = [['A', 'B']] :=
  ⟨by decide, by decide, by decide, by
    have h := claim5_thm [' '] ['A', 'B'] [' '] [] (by decide) (by decide) (by decide)
      (by decide)
    simpa using h⟩

/-! ### Bit-level lemmas for implicant coverage -/

lemma tbit_eq_testBit (n i : ℕ) : tbit n i = Nat.testBit n i := rfl

lemma testBit_orBits (l : List ℕ) (q : ℕ) :
    Nat.testBit (orBits l) q = true ↔ q ∈ l := by
  induction l with
  | nil => simp [orBits, Nat.zero_testBit]
  | cons p ps ih =>
    simp only [orBits, Nat.testBit_lor, Bool.or_eq_true, List.mem_cons]
    rw [Nat.shiftLeft_eq, one_mul, Nat.testBit_two_pow]
    constructor
    · rintro (h | h)
      · left; exact (of_decide_eq_true h).symm
      · right; exact ih.1 h
    · rintro (rfl | h)
      · left; simp
      · right; exact ih.2 h

lemma mem_dontCareBits {mask n p : ℕ} :
    p ∈ dontCareBits mask n ↔ p < n ∧ Nat.testBit mask p = false := by
  unfold dontCareBits
  simp only [List.mem_filter, List.mem_map, List.mem_range, decide_eq_true_eq]
  constructor
  · rintro ⟨⟨i, hi, rfl⟩, hb⟩
    refine ⟨by omega, ?_⟩
    rw [tbit_eq_testBit] at hb
    revert hb
    cases Nat.testBit mask (n - 1 - i) <;> simp
  · rintro ⟨hp, hb⟩
    refine ⟨⟨n - 1 - p, by omega, by omega⟩, ?_⟩
    rw [tbit_eq_testBit, hb]
    simp

lemma orBits_lt_two_pow {l : List ℕ} {n : ℕ} (h : ∀ p ∈ l, p < n) :
    orBits l < 2 ^ n := by
  induction l with
  | nil => simpa [orBits] using Nat.pos_pow_of_pos n (by norm_num)
  | cons p ps ih =>
    simp only [orBits]
    refine Nat.or_lt_two_pow ?_ (ih (fun q hq => h q (List.mem_cons_of_mem _ hq)))
    rw [Nat.shiftLeft_eq, one_mul]
    exact Nat.pow_lt_pow_right (by norm_num) (h p (List.mem_cons_self _ _))

/-- Characterization of `get_covered_minterms` on the diagonal implicants
`(t, t)` the finder produces: the covered cells are exactly the bitwise
supersets of `t` below `2 ^ n`. -/
lemma mem_get_covered_diag {t n x : ℕ} (ht : t < 2 ^ n) :
    x ∈ get_covered_minterms (t, t) n ↔ x < 2 ^ n ∧ t &&& x = t := by
  unfold get_covered_minterms
  simp only [List.mem_toFinset, List.mem_map, List.mem_sublists]
  constructor
  · rintro ⟨s, hs, rfl⟩
    have hsmem : ∀ p ∈ s, p < n ∧ Nat.testBit t p = false := by
      intro p hp
      exact mem_dontCareBits.1 (hs.subset hp)
    constructor
    · exact Nat.or_lt_two_pow ht (orBits_lt_two_pow (fun p hp => (hsmem p hp).1))
    · apply Nat.eq_of_testBit_eq
      intro q
      rw [Nat.testBit_land, Nat.testBit_lor]
      cases hq : Nat.testBit t q <;> simp
  · rintro ⟨hx, hsub⟩
    refine ⟨(dontCareBits t n).filter (fun p => tbit x p), List.filter_sublist _, ?_⟩
    apply Nat.eq_of_testBit_eq
    intro q
    rw [Nat.testBit_lor]
    by_cases hq : Nat.testBit t q = true
    · have : Nat.testBit x q = true := by
        have h2 := congrArg (fun z => Nat.testBit z q) hsub
        simp only [Nat.testBit_land] at h2
        rw [hq] at h2
        simpa using h2
      simp [hq, this]
    · have hq' : Nat.testBit t q = false := by revert hq; cases Nat.testBit t q <;> simp
      rw [hq']
      simp only [Bool.false_or]
      by_cases hqn : q < n
      · by_cases hxq : Nat.testBit x q = true
        · rw [hxq]
          have : q ∈ (dontCareBits t n).filter (fun p => tbit x p) := by
            rw [List.mem_filter]
            exact ⟨mem_dontCareBits.2 ⟨hqn, hq'⟩, by rw [tbit_eq_testBit, hxq]⟩
          exact (testBit_orBits _ _).2 this
        · have hxq' : Nat.testBit x q = false := by revert hxq; cases Nat.testBit x q <;> simp
          rw [hxq']
          by_contra hc
          have hc' : Nat.testBit (orBits ((dontCareBits t n).filter (fun p => tbit x p))) q
              = true := by revert hc; cases Nat.testBit (orBits _) q <;> simp
          have := (testBit_orBits _ _).1 hc'
          rw [List.mem_filter] at this
          rw [tbit_eq_testBit, hxq'] at this
          simpa using this.2
      · have hxq' : Nat.testBit x q = false :=
          Nat.testBit_lt_two_pow (lt_of_lt_of_le hx (Nat.pow_le_pow_right (by norm_num) (by omega)))
        rw [hxq']
        by_contra hc
        have hc' : Nat.testBit (orBits ((dontCareBits t n).filter (fun p => tbit x p))) q
            = true := by revert hc; cases Nat.testBit (orBits _) q <;> simp
        have := (testBit_orBits _ _).1 hc'
        rw [List.mem_filter] at this
        have := mem_dontCareBits.1 this.1
        omega

/-- C4 (amended): the finder's generation zero has one implicant per
minterm with `value_bits = relevance_mask = minterm`; since the mask leaves
the minterm's 0 bits as don't-cares, the generation-zero implicant built
from `m` over an `n`-variable universe covers exactly the bitwise supersets
of `m` below `2^n` (hence the single minterm `m` only when `m = 2^n - 1`). -/
theorem claim4_thm :
    (∀ (minterms : Finset ℕ) (p : ℕ × ℕ), p ∈ initialLevel minterms →
      p.2 = p.1 ∧ p.1 ∈ minterms) ∧
    (∀ (minterms : Finset ℕ) (m : ℕ), m ∈ minterms →
      ((m, m) : ℕ × ℕ) ∈ initialLevel minterms) ∧
    (∀ (n t : ℕ), t < 2 ^ n →
      get_covered_minterms (t, t) n =
        (Finset.range (2 ^ n)).filter (fun x => t &&& x = t)) := by
  refine ⟨?_, ?_, ?_⟩
  · intro M p hp
    unfold initialLevel at hp
    obtain ⟨m, hm, rfl⟩ := List.mem_map.1 hp
    exact ⟨rfl, mem_ascList.1 hm⟩
  · intro M m hm
    unfold initialLevel
    exact List.mem_map_of_mem _ (mem_ascList.2 hm)
  · intro n t ht
    ext x
    rw [mem_get_covered_diag ht]
    simp [Finset.mem_filter, Finset.mem_range]

/-- C4 (witness): the coverage theorem applied to the generation-zero
implicant of minterm 2 over two variables. -/
theorem claim4_witness :
    (2 : ℕ) < 2 ^ 2 ∧
    get_covered_minterms (2, 2) 2 = (Finset.range (2 ^ 2)).filter (fun x => 2 &&& x = 2) :=
  ⟨by decide, claim4_thm.2.2 2 2 (by decide)⟩

/-! ### The merging pass, characterized -/

lemma adjacent_cells_symm (u v : ℕ) : adjacent_cells u v = adjacent_cells v u := by
  unfold adjacent_cells
  rw [Nat.xor_comm]

lemma popcount_zero : popcount 0 = 0 := rfl

lemma adjacent_cells_irrefl (u : ℕ) : adjacent_cells u u = false := by
  unfold adjacent_cells
  rw [Nat.xor_self]
  simp [popcount_zero]

lemma land_ldiff_xor (t1 t2 : ℕ) : ldiffN (t1 &&& t2) (t1 ^^^ t2) = t1 &&& t2 := by
  unfold ldiffN
  apply Nat.eq_of_testBit_eq
  intro q
  simp only [Nat.testBit_xor, Nat.testBit_land]
  cases h1 : Nat.testBit t1 q <;> cases h2 : Nat.testBit t2 q <;> rfl

lemma dictSet_diag_eq {l : List (ℕ × ℕ)} {k : ℕ} (hdiag : ∀ p ∈ l, p.2 = p.1) :
    dictSet l k k = if k ∈ l.map Prod.fst then l else l ++ [(k, k)] := by
  induction l with
  | nil => simp [dictSet]
  | cons p rest ih =>
    obtain ⟨k0, v0⟩ := p
    have hv0 : v0 = k0 := hdiag (k0, v0) (List.mem_cons_self _ _)
    subst hv0
    unfold dictSet
    by_cases hk : v0 = k
    · subst hk
      rw [if_pos rfl]
      simp
    · rw [if_neg hk]
      rw [ih (fun q hq => hdiag q (List.mem_cons_of_mem _ hq))]
      by_cases hmem : k ∈ rest.map Prod.fst
      · rw [if_pos hmem, if_pos (by simp [hmem])]
      · rw [if_neg hmem, if_neg ?_]
        · simp
        · simp only [List.map_cons, List.mem_cons]
          rintro (h | h)
          · exact hk h.symm
          · exact hmem h

lemma two_mem_sublist {α : Type} {a b : α} {l : List α} (ha : a ∈ l) (hb : b ∈ l)
    (hne : a ≠ b) : [a, b].Sublist l ∨ [b, a].Sublist l := by
  induction l with
  | nil => cases ha
  | cons c cs ih =>
    rcases List.mem_cons.1 ha with rfl | ha'
    · have hb' : b ∈ cs := by
        rcases List.mem_cons.1 hb with rfl | h
        · exact absurd rfl hne
        · exact h
      left
      exact List.Sublist.cons₂ _ (List.singleton_sublist.2 hb')
    · rcases List.mem_cons.1 hb with rfl | hb'
      · right
        exact List.Sublist.cons₂ _ (List.singleton_sublist.2 ha')
      · rcases ih ha' hb' with h | h
        · left; exact h.cons _
        · right; exact h.cons _

lemma mem_allPairs {α : Type} {x y : α} :
    ∀ {l : List α}, (x, y) ∈ allPairs l ↔ [x, y].Sublist l := by
  intro l
  induction l with
  | nil =>
    simp only [allPairs, List.not_mem_nil, false_iff]
    intro h
    cases h
  | cons a as ih =>
    simp only [allPairs, List.mem_append, List.mem_map, Prod.mk.injEq]
    constructor
    · rintro (⟨z, hz, rfl, rfl⟩ | h)
      · exact List.Sublist.cons₂ _ (List.singleton_sublist.2 hz)
      · exact (ih.1 h).cons _
    · intro h
      cases h with
      | cons _ h2 => right; exact ih.2 h2
      | cons₂ _ h2 => left; exact ⟨y, List.singleton_sublist.1 h2, rfl, rfl⟩

lemma allPairs_mem_left {α : Type} {x y : α} {l : List α}
    (h : (x, y) ∈ allPairs l) : x ∈ l ∧ y ∈ l := by
  have hs := mem_allPairs.1 h
  exact ⟨hs.subset (List.mem_cons_self _ _),
    hs.subset (List.mem_cons_of_mem _ (List.mem_cons_self _ _))⟩

lemma mergeFold_spec :
    ∀ (pairs : List ((ℕ × ℕ) × (ℕ × ℕ))),
      (∀ pr ∈ pairs, pr.1.2 = pr.1.1 ∧ pr.2.2 = pr.2.1) →
      ∀ st : List (ℕ × ℕ) × Finset ℕ, (∀ p ∈ st.1, p.2 = p.1) →
        (∀ p ∈ (pairs.foldl mergeStep st).1, p.2 = p.1) ∧
        (∀ t m : ℕ, ((t, m) ∈ (pairs.foldl mergeStep st).1 ↔
          (t, m) ∈ st.1 ∨ (m = t ∧ ∃ pr ∈ pairs,
            adjacent_cells pr.1.1 pr.2.1 = true ∧ t = pr.1.1 &&& pr.2.1))) ∧
        (∀ u : ℕ, (u ∈ (pairs.foldl mergeStep st).2 ↔
          u ∈ st.2 ∨ ∃ pr ∈ pairs, adjacent_cells pr.1.1 pr.2.1 = true ∧
            (u = pr.1.1 ∨ u = pr.2.1))) := by
  intro pairs
  induction pairs with
  | nil =>
    intro _ st hst
    refine ⟨hst, ?_, ?_⟩
    · intro t m; simp
    · intro u; simp
  | cons pr rest ih =>
    intro hpr st hst
    obtain ⟨⟨u0, mu⟩, ⟨v0, mv⟩⟩ := pr
    have hmu : u0 = mu := ((hpr _ (List.mem_cons_self _ _)).1).symm
    have hmv : v0 = mv := ((hpr _ (List.mem_cons_self _ _)).2).symm
    subst hmu hmv
    rw [List.foldl_cons]
    by_cases hadj : adjacent_cells u0 v0 = true
    · have hstep : mergeStep st ((u0, u0), (v0, v0)) =
          (dictSet st.1 (u0 &&& v0) (u0 &&& v0), insert u0 (insert v0 st.2)) := by
        simp only [mergeStep, hadj, if_true]
        rw [land_ldiff_xor]
      rw [hstep]
      have hdiag1 : ∀ p ∈ dictSet st.1 (u0 &&& v0) (u0 &&& v0), p.2 = p.1 := by
        rw [dictSet_diag_eq hst]
        split
        · exact hst
        · intro p hp
          rcases List.mem_append.1 hp with h | h
          · exact hst p h
          · rw [List.mem_singleton.1 h]
      have hmem1 : ∀ t m : ℕ, ((t, m) ∈ dictSet st.1 (u0 &&& v0) (u0 &&& v0) ↔
          (t, m) ∈ st.1 ∨ (t, m) = (u0 &&& v0, u0 &&& v0)) := by
        intro t m
        rw [dictSet_diag_eq hst]
        split
        · next hin =>
          constructor
          · exact fun h => Or.inl h
          · rintro (h | h)
            · exact h
            · obtain ⟨q, hq, hq2⟩ := List.mem_map.1 hin
              have hqq : q = (u0 &&& v0, u0 &&& v0) := by
                obtain ⟨qa, qb⟩ := q
                have h3 := hst _ hq
                simp only at h3 hq2
                rw [hq2] at h3
                rw [hq2, h3]
              rw [h, ← hqq]
              exact hq
        · simp [List.mem_append]
      obtain ⟨ihdiag, ihmem, ihused⟩ := ih
        (fun q hq => hpr q (List.mem_cons_of_mem _ hq))
        (dictSet st.1 (u0 &&& v0) (u0 &&& v0), insert u0 (insert v0 st.2)) hdiag1
      refine ⟨ihdiag, ?_, ?_⟩
      · intro t m
        rw [ihmem t m]
        constructor
        · rintro (h | ⟨rfl, pr', hpr', hadj', ht⟩)
          · rcases (hmem1 t m).1 h with h2 | h2
            · exact Or.inl h2
            · have hpair := h2
              injection hpair with ht hm
              refine Or.inr ⟨by rw [ht, hm], ((u0, u0), (v0, v0)),
                List.mem_cons_self _ _, hadj, ht⟩
          · exact Or.inr ⟨rfl, pr', List.mem_cons_of_mem _ hpr', hadj', ht⟩
        · rintro (h | ⟨rfl, pr', hpr', hadj', ht⟩)
          · exact Or.inl ((hmem1 t m).2 (Or.inl h))
          · rcases List.mem_cons.1 hpr' with rfl | hpr''
            · exact Or.inl ((hmem1 _ _).2 (Or.inr (by rw [ht])))
            · exact Or.inr ⟨rfl, pr', hpr'', hadj', ht⟩
      · intro u
        rw [ihused u]
        simp only [Finset.mem_insert]
        constructor
        · rintro ((rfl | rfl | h) | ⟨pr', hpr', hadj', hu⟩)
          · exact Or.inr ⟨((u, u), (v0, v0)), List.mem_cons_self _ _, hadj, Or.inl rfl⟩
          · exact Or.inr ⟨((u0, u0), (u, u)), List.mem_cons_self _ _, hadj, Or.inr rfl⟩
          · exact Or.inl h
          · exact Or.inr ⟨pr', List.mem_cons_of_mem _ hpr', hadj', hu⟩
        · rintro (h | ⟨pr', hpr', hadj', hu⟩)
          · exact Or.inl (Or.inr (Or.inr h))
          · rcases List.mem_cons.1 hpr' with rfl | hpr''
            · simp only at hu
              rcases hu with rfl | rfl
              · exact Or.inl (Or.inl rfl)
              · exact Or.inl (Or.inr (Or.inl rfl))
            · exact Or.inr ⟨pr', hpr'', hadj', hu⟩
    · have hstep : mergeStep st ((u0, u0), (v0, v0)) = st := by
        simp only [mergeStep]
        rw [if_neg hadj]
      rw [hstep]
      obtain ⟨ihdiag, ihmem, ihused⟩ := ih
        (fun q hq => hpr q (List.mem_cons_of_mem _ hq)) st hst
      refine ⟨ihdiag, ?_, ?_⟩
      · intro t m
        rw [ihmem t m]
        constructor
        · rintro (h | ⟨rfl, pr', hpr', hadj', ht⟩)
          · exact Or.inl h
          · exact Or.inr ⟨rfl, pr', List.mem_cons_of_mem _ hpr', hadj', ht⟩
        · rintro (h | ⟨rfl, pr', hpr', hadj', ht⟩)
          · exact Or.inl h
          · rcases List.mem_cons.1 hpr' with rfl | hpr''
            · exact absurd hadj' hadj
            · exact Or.inr ⟨rfl, pr', hpr'', hadj', ht⟩
      · intro u
        rw [ihused u]
        constructor
        · rintro (h | ⟨pr', hpr', hadj', hu⟩)
          · exact Or.inl h
          · exact Or.inr ⟨pr', List.mem_cons_of_mem _ hpr', hadj', hu⟩
        · rintro (h | ⟨pr', hpr', hadj', hu⟩)
          · exact Or.inl h
          · rcases List.mem_cons.1 hpr' with rfl | hpr''
            · exact absurd hadj' hadj
            · exact Or.inr ⟨pr', hpr'', hadj', hu⟩

lemma mergePass_spec (level : List (ℕ × ℕ)) (hdiag : ∀ p ∈ level, p.2 = p.1) :
    (∀ p ∈ (mergePass level).1, p.2 = p.1) ∧
    (∀ t m : ℕ, ((t, m) ∈ (mergePass level).1 ↔
      m = t ∧ ∃ u v : ℕ, (u, u) ∈ level ∧ (v, v) ∈ level ∧
        adjacent_cells u v = true ∧ t = u &&& v)) ∧
    (∀ u : ℕ, (u ∈ (mergePass level).2 ↔
      (u, u) ∈ level ∧ ∃ v : ℕ, (v, v) ∈ level ∧ adjacent_cells u v = true)) := by
  have hpr : ∀ pr ∈ allPairs level, pr.1.2 = pr.1.1 ∧ pr.2.2 = pr.2.1 := by
    intro pr hp
    obtain ⟨h1, h2⟩ := allPairs_mem_left hp
    exact ⟨hdiag _ h1, hdiag _ h2⟩
  obtain ⟨h1, h2, h3⟩ := mergeFold_spec (allPairs level) hpr ([], ∅) (by simp)
  unfold mergePass
  refine ⟨h1, ?_, ?_⟩
  · intro t m
    rw [h2 t m]
    constructor
    · rintro (h | ⟨rfl, pr, hpr2, hadj, ht⟩)
      · simp at h
      · obtain ⟨hm1, hm2⟩ := allPairs_mem_left hpr2
        have e1 : pr.1 = (pr.1.1, pr.1.1) := by
          have := (hpr pr hpr2).1
          exact Prod.ext rfl this
        have e2 : pr.2 = (pr.2.1, pr.2.1) := by
          have := (hpr pr hpr2).2
          exact Prod.ext rfl this
        exact ⟨rfl, pr.1.1, pr.2.1, e1 ▸ hm1, e2 ▸ hm2, hadj, ht⟩
    · rintro ⟨rfl, u, v, hu, hv, hadj, ht⟩
      have hne : ((u, u) : ℕ × ℕ) ≠ (v, v) := by
        intro hc
        have : u = v := congrArg Prod.fst hc
        rw [this] at hadj
        rw [adjacent_cells_irrefl v] at hadj
        cases hadj
      right
      refine ⟨rfl, ?_⟩
      rcases two_mem_sublist hu hv hne with hs | hs
      · exact ⟨((u, u), (v, v)), mem_allPairs.2 hs, hadj, ht⟩
      · refine ⟨((v, v), (u, u)), mem_allPairs.2 hs, ?_, ?_⟩
        · rw [← adjacent_cells_symm u v]; exact hadj
        · rw [Nat.land_comm]; exact ht
  · intro u
    rw [h3 u]
    constructor
    · rintro (h | ⟨pr, hpr2, hadj, hu⟩)
      · simp at h
      · obtain ⟨hm1, hm2⟩ := allPairs_mem_left hpr2
        have e1 : pr.1 = (pr.1.1, pr.1.1) := Prod.ext rfl (hpr pr hpr2).1
        have e2 : pr.2 = (pr.2.1, pr.2.1) := Prod.ext rfl (hpr pr hpr2).2
        rcases hu with rfl | rfl
        · exact ⟨e1 ▸ hm1, pr.2.1, e2 ▸ hm2, hadj⟩
        · refine ⟨e2 ▸ hm2, pr.1.1, e1 ▸ hm1, ?_⟩
          rw [adjacent_cells_symm]; exact hadj
    · rintro ⟨hu, v, hv, hadj⟩
      have hne : ((u, u) : ℕ × ℕ) ≠ (v, v) := by
        intro hc
        have huv : u = v := congrArg Prod.fst hc
        rw [huv, adjacent_cells_irrefl v] at hadj
        cases hadj
      right
      rcases two_mem_sublist hu hv hne with hs | hs
      · exact ⟨((u, u), (v, v)), mem_allPairs.2 hs, hadj, Or.inl rfl⟩
      · refine ⟨((v, v), (u, u)), mem_allPairs.2 hs, ?_, Or.inr rfl⟩
        rw [← adjacent_cells_symm u v]; exact hadj

/-- C3 (amended): every implicant of every generation satisfies
`relevance_mask = value_bits` (generation zero starts that way and merging
preserves it), and within a generation two implicants are merged exactly
when their value_bits differ in one bit — the masks, which differ whenever
the value_bits do, are not compared; the merged implicant keeps the common
value bits and its mask equals those same common bits. -/
theorem claim3_thm (level : List (ℕ × ℕ)) (hdiag : ∀ p ∈ level, p.2 = p.1) :
    (∀ u : ℕ, (u ∈ (mergePass level).2 ↔
      (u, u) ∈ level ∧ ∃ v : ℕ, (v, v) ∈ level ∧ adjacent_cells u v = true)) ∧
    (∀ t m : ℕ, ((t, m) ∈ (mergePass level).1 ↔
      m = t ∧ ∃ u v : ℕ, (u, u) ∈ level ∧ (v, v) ∈ level ∧
        adjacent_cells u v = true ∧ t = u &&& v)) ∧
    (∀ p ∈ (mergePass level).1, p.2 = p.1) := by
  obtain ⟨h1, h2, h3⟩ := mergePass_spec level hdiag
  exact ⟨h3, h2, h1⟩

/-- C3 (witness): the merge characterization applied to the concrete
generation `[(2,2), (3,3)]`. -/
theorem claim3_witness :
    (∀ p ∈ [((2 : ℕ), (2 : ℕ)), (3, 3)], p.2 = p.1) ∧
    ((2 : ℕ) ∈ (mergePass [(2, 2), (3, 3)]).2 ↔
      ((2 : ℕ), (2 : ℕ)) ∈ [((2 : ℕ), (2 : ℕ)), (3, 3)] ∧
      ∃ v : ℕ, (v, v) ∈ [((2 : ℕ), (2 : ℕ)), (3, 3)] ∧ adjacent_cells 2 v = true) :=
  ⟨by decide, (claim3_thm [(2, 2), (3, 3)] (by decide)).1 2⟩

/-! ### Insertion sort lemmas -/

lemma insertSorted_perm (le : α → α → Bool) (x : α) :
    ∀ l : List α, (insertSorted le x l).Perm (x :: l) := by
  intro l
  induction l with
  | nil => exact List.Perm.refl _
  | cons y ys ih =>
    unfold insertSorted
    split
    · exact List.Perm.refl _
    · exact (ih.cons y).trans (List.Perm.swap x y ys)

lemma insSort_perm (le : α → α → Bool) : ∀ l : List α, (insSort le l).Perm l := by
  intro l
  induction l with
  | nil => exact List.Perm.refl _
  | cons x xs ih =>
    unfold insSort
    exact (insertSorted_perm le x (insSort le xs)).trans (ih.cons x)

lemma mem_insSort (le : α → α → Bool) {l : List α} {x : α} :
    x ∈ insSort le l ↔ x ∈ l := (insSort_perm le l).mem_iff

lemma insertSorted_pairwise {le : α → α → Bool}
    (htot : ∀ a b, le a b = true ∨ le b a = true)
    (htr : ∀ a b c, le a b = true → le b c = true → le a c = true) (x : α) :
    ∀ l : List α, l.Pairwise (fun a b => le a b = true) →
      (insertSorted le x l).Pairwise (fun a b => le a b = true) := by
  intro l
  induction l with
  | nil =>
    intro _
    unfold insertSorted
    exact List.pairwise_singleton _ _
  | cons y ys ih =>
    intro hp
    unfold insertSorted
    split
    · next hxy =>
      refine List.Pairwise.cons ?_ hp
      intro z hz
      rcases List.mem_cons.1 hz with rfl | hz'
      · exact hxy
      · exact htr _ _ _ hxy (List.rel_of_pairwise_cons hp hz')
    · next hxy =>
      have hyx : le y x = true := by
        rcases htot x y with h | h
        · rw [h] at hxy; exact absurd rfl hxy
        · exact h
      refine List.Pairwise.cons ?_ (ih (List.Pairwise.of_cons hp))
      intro z hz
      rcases List.mem_cons.1 ((insertSorted_perm le x ys).mem_iff.1 hz) with rfl | h
      · exact hyx
      · exact List.rel_of_pairwise_cons hp h

lemma insSort_pairwise {le : α → α → Bool}
    (htot : ∀ a b, le a b = true ∨ le b a = true)
    (htr : ∀ a b c, le a b = true → le b c = true → le a c = true) :
    ∀ l : List α, (insSort le l).Pairwise (fun a b => le a b = true) := by
  intro l
  induction l with
  | nil => simp [insSort]
  | cons x xs ih =>
    unfold insSort
    exact insertSorted_pairwise htot htr x _ ih

lemma insertSorted_map_congr {β : Type} (f : α → β) (le1 : α → α → Bool)
    (le2 : β → β → Bool) (x : α) :
    ∀ m : List α, (∀ y ∈ m, le2 (f x) (f y) = le1 x y) →
      insertSorted le2 (f x) (m.map f) = (insertSorted le1 x m).map f := by
  intro m
  induction m with
  | nil => intro _; rfl
  | cons y ys ih =>
    intro hagree
    simp only [List.map_cons]
    unfold insertSorted
    rw [hagree y (List.mem_cons_self _ _)]
    split
    · simp
    · simp only [List.map_cons, List.cons.injEq, true_and]
      exact ih (fun z hz => hagree z (List.mem_cons_of_mem _ hz))

lemma insSort_map_congr {β : Type} (f : α → β) (le1 : α → α → Bool)
    (le2 : β → β → Bool) :
    ∀ l : List α, (∀ x ∈ l, ∀ y ∈ l, le2 (f x) (f y) = le1 x y) →
      insSort le2 (l.map f) = (insSort le1 l).map f := by
  intro l
  induction l with
  | nil => intro _; rfl
  | cons x xs ih =>
    intro hagree
    simp only [List.map_cons]
    unfold insSort
    rw [ih (fun a ha b hb => hagree a (List.mem_cons_of_mem _ ha) b (List.mem_cons_of_mem _ hb))]
    exact insertSorted_map_congr f le1 le2 x (insSort le1 xs)
      (fun y hy => hagree x (List.mem_cons_self _ _) y
        (List.mem_cons_of_mem _ ((insSort_perm le1 xs).mem_iff.1 hy)))

/-! ### Character-list lexicographic order lemmas -/

lemma lexLeCh_iff : ∀ a b : List Char,
    lexLeCh a b = true ↔ (a = b ∨ List.Lex (· < ·) a b) := by
  intro a
  induction a with
  | nil =>
    intro b
    cases b with
    | nil => simp [lexLeCh]
    | cons y ys =>
      simp only [lexLeCh, true_iff]
      right
      exact List.Lex.nil
  | cons x xs ih =>
    intro b
    cases b with
    | nil =>
      simp only [lexLeCh, Bool.false_eq_true, false_iff]
      rintro (h | h)
      · cases h
      · exact List.Lex.not_nil_right _ _ h
    | cons y ys =>
      simp only [lexLeCh]
      rcases lt_trichotomy x y with h | rfl | h
      · rw [if_pos h]
        simp only [true_iff]
        right
        exact List.Lex.rel h
      · rw [if_neg (lt_irrefl x), if_neg (lt_irrefl x)]
        rw [ih ys]
        constructor
        · rintro (rfl | h)
          · left; rfl
          · right; exact List.Lex.cons h
        · rintro (h | h)
          · left; exact (List.cons.injEq _ _ _ _ ▸ h : _ ∧ _).2
          · cases h with
            | cons h2 => right; exact h2
            | rel h2 => exact absurd h2 (lt_irrefl x)
      · rw [if_neg (lt_asymm h), if_pos h]
        simp only [Bool.false_eq_true, false_iff]
        rintro (hc | hc)
        · have : x = y := (List.cons.injEq _ _ _ _ ▸ hc : _ ∧ _).1
          rw [this] at h
          exact lt_irrefl y h
        · cases hc with
          | cons h2 => exact lt_irrefl x h
          | rel h2 => exact lt_asymm h h2

lemma lexLeCh_total : ∀ a b : List Char, lexLeCh a b = true ∨ lexLeCh b a = true := by
  intro a b
  haveI := List.Lex.isStrictTotalOrder ((· < ·) : Char → Char → Prop)
  rcases trichotomous_of (List.Lex ((· < ·) : Char → Char → Prop)) a b with h | rfl | h
  · left; exact (lexLeCh_iff a b).2 (Or.inr h)
  · left; exact (lexLeCh_iff a a).2 (Or.inl rfl)
  · right; exact (lexLeCh_iff b a).2 (Or.inr h)

lemma lexLeCh_trans : ∀ a b c : List Char,
    lexLeCh a b = true → lexLeCh b c = true → lexLeCh a c = true := by
  intro a b c h1 h2
  haveI := List.Lex.isStrictTotalOrder ((· < ·) : Char → Char → Prop)
  rw [lexLeCh_iff] at h1 h2 ⊢
  rcases h1 with rfl | h1
  · exact h2
  · rcases h2 with rfl | h2
    · right; exact h1
    · right; exact trans_of (List.Lex ((· < ·) : Char → Char → Prop)) h1 h2

lemma frontOf_cons (x : Char) (xs ys : List Char) :
    frontOf (x :: xs) (x :: ys) = frontOf xs ys := by
  unfold frontOf
  simp only [List.length_cons, List.take_succ_cons, List.cons.injEq, true_and,
    Nat.add_lt_add_iff_right]

lemma lexLeCh_append_rbracket : ∀ a b : List Char,
    frontOf a b = false → frontOf b a = false →
    lexLeCh (a ++ [']']) (b ++ [']']) = lexLeCh a b := by
  intro a
  induction a with
  | nil =>
    intro b hab hba
    have hb : b = [] := by
      cases b with
      | nil => rfl
      | cons y ys => simp [frontOf] at hab
    subst hb
    rfl
  | cons x xs ih =>
    intro b hab hba
    cases b with
    | nil => simp [frontOf] at hba
    | cons y ys =>
      simp only [List.cons_append, lexLeCh]
      by_cases hxy : x < y
      · rw [if_pos hxy, if_pos hxy]
      · rw [if_neg hxy, if_neg hxy]
        by_cases hyx : y < x
        · rw [if_pos hyx, if_pos hyx]
        · rw [if_neg hyx, if_neg hyx]
          have hxeqy : x = y := le_antisymm (not_lt.1 hyx) (not_lt.1 hxy)
          subst hxeqy
          rw [frontOf_cons] at hab hba
          exact ih ys hab hba

/-! ### Formatter lemmas -/

lemma bracket_data (g : List Char) :
    ("[" ++ (⟨g⟩ : String) ++ "]").data = '[' :: (g ++ [']']) := by
  simp [String.data_append]

lemma bracket_ne_empty (g : List Char) : ("[" ++ (⟨g⟩ : String) ++ "]") ≠ "" := by
  intro hc
  have := congrArg String.data hc
  rw [bracket_data] at this
  cases this

lemma strLe_bracket {g1 g2 : List Char} (h12 : frontOf g1 g2 = false)
    (h21 : frontOf g2 g1 = false) :
    strLe ("[" ++ (⟨g1⟩ : String) ++ "]") ("[" ++ (⟨g2⟩ : String) ++ "]") =
      lexLeCh g1 g2 := by
  unfold strLe
  rw [bracket_data, bracket_data]
  show lexLeCh ('[' :: (g1 ++ [']'])) ('[' :: (g2 ++ [']'])) = _
  simp only [lexLeCh]
  rw [if_neg (lt_irrefl '['), if_neg (lt_irrefl '[')]
  exact lexLeCh_append_rbracket g1 g2 h12 h21

lemma implicant_to_expr_eq (pi : ℕ × ℕ) (vars : List Char) :
    implicant_to_expr pi vars =
      if implicantLetters pi vars = [] then ""
      else "[" ++ (⟨implicantLetters pi vars⟩ : String) ++ "]" := rfl

lemma format_terms_eq (cover : List (ℕ × ℕ)) (vars : List Char) :
    (cover.map (fun pi => implicant_to_expr pi vars)).filter (fun e => e ≠ "") =
      ((cover.map (fun pi => implicantLetters pi vars)).filter (fun g => g ≠ [])).map
        (fun g => "[" ++ (⟨g⟩ : String) ++ "]") := by
  induction cover with
  | nil => rfl
  | cons pi rest ih =>
    simp only [List.map_cons]
    by_cases h : implicantLetters pi vars = []
    · rw [List.filter_cons, List.filter_cons]
      rw [implicant_to_expr_eq, if_pos h]
      simp only [h]
      simpa using ih
    · rw [List.filter_cons, List.filter_cons]
      rw [implicant_to_expr_eq, if_neg h]
      rw [if_pos (by simp [bracket_ne_empty]), if_pos (by simp [h])]
      simp only [List.map_cons]
      rw [ih]

lemma foldl_append_data : ∀ (l : List String) (acc : String),
    (l.foldl (fun a t => a ++ t) acc).data = acc.data ++ (l.map String.data).flatten := by
  intro l
  induction l with
  | nil => intro acc; simp
  | cons s rest ih =>
    intro acc
    rw [List.foldl_cons, ih]
    simp [String.data_append]

lemma findallGroups_brackets :
    ∀ gs : List (List Char), (∀ g ∈ gs, g ≠ [] ∧ ∀ c ∈ g, isUpperAZ c = true) →
      findallGroups ((gs.map (fun g => '[' :: (g ++ [']']))).flatten) = gs := by
  intro gs
  induction gs with
  | nil => intro _; rfl
  | cons g rest ih =>
    intro hw
    simp only [List.map_cons, List.flatten_cons]
    have e1 : ('[' :: (g ++ [']'])) ++ (rest.map (fun g => '[' :: (g ++ [']']))).flatten =
        '[' :: ([] ++ g ++ [] ++ ']' :: (rest.map (fun g => '[' :: (g ++ [']']))).flatten) := by
      simp
    rw [e1, findallGroups_group [] g [] _ (by simp) (by simp)
      (hw g (List.mem_cons_self _ _)).1 (hw g (List.mem_cons_self _ _)).2]
    rw [ih (fun q hq => hw q (List.mem_cons_of_mem _ hq))]

lemma implicantLetters_sublist (pi : ℕ × ℕ) (vars : List Char) :
    (implicantLetters pi vars).Sublist vars := by
  unfold implicantLetters
  have h1 : (vars.enum.filter
      (fun iv => tbit pi.2 (vars.length - 1 - iv.1) &&
        tbit pi.1 (vars.length - 1 - iv.1))).Sublist vars.enum :=
    List.filter_sublist _
  have h2 := h1.map Prod.snd
  rw [List.enum_map_snd] at h2
  exact h2

lemma mem_implicantLetters {pi : ℕ × ℕ} {vars : List Char} {c : Char} :
    c ∈ implicantLetters pi vars ↔ ∃ i : ℕ, i < vars.length ∧ vars[i]? = some c ∧
      tbit pi.2 (vars.length - 1 - i) = true ∧ tbit pi.1 (vars.length - 1 - i) = true := by
  unfold implicantLetters
  simp only [List.mem_map, List.mem_filter]
  constructor
  · rintro ⟨⟨i, a⟩, ⟨hmem, hcond⟩, rfl⟩
    have hget : vars[i]? = some a := List.mk_mem_enum_iff_getElem?.1 hmem
    have hlt : i < vars.length := by
      have := List.getElem?_eq_some_iff.1 hget
      exact this.1
    simp only [Bool.and_eq_true] at hcond
    exact ⟨i, hlt, hget, hcond.1, hcond.2⟩
  · rintro ⟨i, hlt, hget, h1, h2⟩
    refine ⟨(i, c), ⟨List.mk_mem_enum_iff_getElem?.2 hget, ?_⟩, rfl⟩
    simp only [Bool.and_eq_true]
    exact ⟨h1, h2⟩

lemma formatCover_groups (cover : List (ℕ × ℕ)) (vars : List Char)
    (hvup : ∀ c ∈ vars, isUpperAZ c = true)
    (hfront : ∀ g1 ∈ (cover.map (fun pi => implicantLetters pi vars)).filter
        (fun g => g ≠ []),
      ∀ g2 ∈ (cover.map (fun pi => implicantLetters pi vars)).filter (fun g => g ≠ []),
      frontOf g1 g2 = false) :
    findallGroups (formatCover cover vars).data =
      insSort lexLeCh
        ((cover.map (fun pi => implicantLetters pi vars)).filter (fun g => g ≠ [])) := by
  simp only [formatCover]
  rw [format_terms_eq]
  rw [insSort_map_congr (fun g => "[" ++ (⟨g⟩ : String) ++ "]") lexLeCh strLe _
    (fun g1 h1 g2 h2 => strLe_bracket (hfront g1 h1 g2 h2) (hfront g2 h2 g1 h1))]
  have hdata : (((insSort lexLeCh
        ((cover.map (fun pi => implicantLetters pi vars)).filter (fun g => g ≠ []))).map
          (fun g => "[" ++ (⟨g⟩ : String) ++ "]")).foldl (fun acc t => acc ++ t) "").data =
      ((insSort lexLeCh
        ((cover.map (fun pi => implicantLetters pi vars)).filter (fun g => g ≠ []))).map
          (fun g => '[' :: (g ++ [']']))).flatten := by
    rw [foldl_append_data]
    rw [List.map_map]
    have : (String.data ∘ fun g => "[" ++ (⟨g⟩ : String) ++ "]") =
        (fun g => '[' :: (g ++ [']'])) := by
      funext g
      exact bracket_data g
    rw [this]
    rfl
  rw [hdata]
  apply findallGroups_brackets
  intro g hg
  have hg2 := (mem_insSort lexLeCh).1 hg
  rw [List.mem_filter] at hg2
  obtain ⟨hgm, hgne⟩ := hg2
  obtain ⟨pi, _, rfl⟩ := List.mem_map.1 hgm
  refine ⟨by simpa using hgne, ?_⟩
  intro c hc
  exact hvup c ((implicantLetters_sublist pi vars).subset hc)

/-- C9 (amended): the formatter renders each implicant as one bracket group
whose letters are exactly the universe symbols at positions where relevance
mask and required value are both 1 (mask-relevant positions requiring 0
contribute nothing); within a group the letters are ascending; the groups
are sorted ascending as full bracketed strings, which coincides with
ascending letter-string order whenever no group's letter string is a proper
front of another's (the hypothesis below), and the output is their
concatenation with no separators. -/
theorem claim9_thm (cover : List (ℕ × ℕ)) (vars : List Char)
    (hvsort : vars.Sorted (· < ·)) (hvup : ∀ c ∈ vars, isUpperAZ c = true)
    (hfront : ∀ g1 ∈ (cover.map (fun pi => implicantLetters pi vars)).filter
        (fun g => g ≠ []),
      ∀ g2 ∈ (cover.map (fun pi => implicantLetters pi vars)).filter (fun g => g ≠ []),
      frontOf g1 g2 = false) :
    (∀ pi ∈ cover, ∀ c : Char, (c ∈ implicantLetters pi vars ↔
      ∃ i : ℕ, i < vars.length ∧ vars[i]? = some c ∧
        tbit pi.2 (vars.length - 1 - i) = true ∧
        tbit pi.1 (vars.length - 1 - i) = true)) ∧
    (∀ pi ∈ cover, (implicantLetters pi vars).Sorted (· < ·)) ∧
    findallGroups (formatCover cover vars).data =
      insSort lexLeCh
        ((cover.map (fun pi => implicantLetters pi vars)).filter (fun g => g ≠ [])) ∧
    (insSort lexLeCh
      ((cover.map (fun pi => implicantLetters pi vars)).filter (fun g => g ≠ []))).Perm
      ((cover.map (fun pi => implicantLetters pi vars)).filter (fun g => g ≠ [])) ∧
    (insSort lexLeCh
      ((cover.map (fun pi => implicantLetters pi vars)).filter (fun g => g ≠ []))).Pairwise
      (fun a b => lexLeCh a b = true) := by
  refine ⟨?_, ?_, formatCover_groups cover vars hvup hfront, insSort_perm _ _,
    insSort_pairwise lexLeCh_total lexLeCh_trans _⟩
  · intro pi _ c
    exact mem_implicantLetters
  · intro pi _
    exact hvsort.sublist (implicantLetters_sublist pi vars)

/-- C9 (witness): the formatter theorem applied to the concrete cover
`[(4,4), (3,3)]` over universe `A,B,C`. -/
theorem claim9_witness :
    (['A', 'B', 'C'] : List Char).Sorted (· < ·) ∧
    findallGroups (formatCover [(4, 4), (3, 3)] ['A', 'B', 'C']).data =
      insSort lexLeCh ((([(4, 4), (3, 3)] : List (ℕ × ℕ)).map
        (fun pi => implicantLetters pi ['A', 'B', 'C'])).filter (fun g => g ≠ [])) :=
  ⟨by decide,
    (claim9_thm [(4, 4), (3, 3)] ['A', 'B', 'C'] (by decide) (by decide) (by decide)).2.2.1⟩

/-! ### Exact-cover solver lemmas -/

lemma mem_dedupF [DecidableEq α] :
    ∀ (l seen : List α) (x : α), x ∈ dedupF seen l ↔ (x ∈ l ∧ x ∉ seen) := by
  intro l
  induction l with
  | nil => intro seen x; simp [dedupF]
  | cons a as ih =>
    intro seen x
    unfold dedupF
    split
    · next ha =>
      rw [ih]
      constructor
      · rintro ⟨h1, h2⟩
        exact ⟨List.mem_cons_of_mem _ h1, h2⟩
      · rintro ⟨h1, h2⟩
        rcases List.mem_cons.1 h1 with rfl | h1'
        · exact absurd ha h2
        · exact ⟨h1', h2⟩
    · next ha =>
      simp only [List.mem_cons, ih]
      constructor
      · rintro (rfl | ⟨h1, h2⟩)
        · exact ⟨Or.inl rfl, ha⟩
        · refine ⟨Or.inr h1, ?_⟩
          intro hc
          exact h2 (Or.inr hc)
      · rintro ⟨rfl | h1, h2⟩
        · exact Or.inl rfl
        · by_cases hxa : x = a
          · exact Or.inl hxa
          · refine Or.inr ⟨h1, ?_⟩
            rintro (h | h)
            · exact hxa h
            · exact h2 h

lemma foldl_filter_id {α β : Type} [DecidableEq α] {f : β → α → β} {m : α}
    (hid : ∀ acc, f acc m = acc) :
    ∀ (l : List α) (init : β),
      (l.filter (fun x => x ≠ m)).foldl f init = l.foldl f init := by
  intro l
  induction l with
  | nil => intro init; rfl
  | cons x xs ih =>
    intro init
    rw [List.filter_cons]
    by_cases hx : x = m
    · subst hx
      rw [if_neg (by simp)]
      rw [List.foldl_cons, hid]
      exact ih init
    · rw [if_pos (by simp [hx])]
      rw [List.foldl_cons, List.foldl_cons]
      exact ih _

lemma coverageItems_erase {pis : List (ℕ × ℕ)} {M : Finset ℕ} {n m : ℕ}
    (hm : m ∈ M) (huncov : ∀ pi ∈ pis, m ∉ get_covered_minterms pi n) :
    coverageItems pis M n = coverageItems pis (M.erase m) n := by
  unfold coverageItems
  apply List.map_congr_left
  intro pi hpi
  have hpi2 : pi ∈ pis := ((mem_dedupF pis [] pi).1 hpi).1
  have : get_covered_minterms pi n ∩ M = get_covered_minterms pi n ∩ M.erase m := by
    ext x
    simp only [Finset.mem_inter, Finset.mem_erase]
    constructor
    · rintro ⟨h1, h2⟩
      refine ⟨h1, ?_, h2⟩
      rintro rfl
      exact huncov pi hpi2 h1
    · rintro ⟨h1, _, h2⟩
      exact ⟨h1, h2⟩
  rw [this]

lemma coverageItems_snd_subset {pis : List (ℕ × ℕ)} {M : Finset ℕ} {n : ℕ} :
    ∀ pc ∈ coverageItems pis M n, pc.2 ⊆ M := by
  intro pc hpc
  unfold coverageItems at hpc
  obtain ⟨pi, _, rfl⟩ := List.mem_map.1 hpc
  exact Finset.inter_subset_right

lemma essentialPair_fold_inv (covItems : List ((ℕ × ℕ) × Finset ℕ)) :
    ∀ (sl : List ℕ) (st : List (ℕ × ℕ) × Finset ℕ),
      (∀ x ∈ st.2, ∃ pc ∈ covItems, pc.1 ∈ st.1 ∧ x ∈ pc.2) →
      (∀ pi ∈ st.1, ∃ pc ∈ covItems, pc.1 = pi) →
      (∀ x ∈ (sl.foldl (fun acc m =>
          match covItems.filter (fun pc => m ∈ pc.2) with
          | [pc] => if pc.1 ∈ acc.1 then acc else (acc.1 ++ [pc.1], acc.2 ∪ pc.2)
          | _ => acc) st).2, ∃ pc ∈ covItems,
        pc.1 ∈ (sl.foldl (fun acc m =>
          match covItems.filter (fun pc => m ∈ pc.2) with
          | [pc] => if pc.1 ∈ acc.1 then acc else (acc.1 ++ [pc.1], acc.2 ∪ pc.2)
          | _ => acc) st).1 ∧ x ∈ pc.2) ∧
      (∀ pi ∈ (sl.foldl (fun acc m =>
          match covItems.filter (fun pc => m ∈ pc.2) with
          | [pc] => if pc.1 ∈ acc.1 then acc else (acc.1 ++ [pc.1], acc.2 ∪ pc.2)
          | _ => acc) st).1, ∃ pc ∈ covItems, pc.1 = pi) := by
  intro sl
  induction sl with
  | nil => intro st h1 h2; exact ⟨h1, h2⟩
  | cons a as ih =>
    intro st h1 h2
    rw [List.foldl_cons]
    apply ih
    · cases hflt : covItems.filter (fun pc => a ∈ pc.2) with
      | nil => simpa [hflt] using h1
      | cons pc0 rest =>
        cases rest with
        | nil =>
          simp only [hflt]
          split
          · exact h1
          · intro x hx
            simp only [Finset.mem_union] at hx
            rcases hx with hx | hx
            · obtain ⟨pc, hpc, hpc1, hpc2⟩ := h1 x hx
              exact ⟨pc, hpc, by simp [hpc1], hpc2⟩
            · refine ⟨pc0, ?_, by simp, hx⟩
              have hsubl : (covItems.filter (fun pc => a ∈ pc.2)).Sublist covItems :=
                List.filter_sublist _
              rw [hflt] at hsubl
              exact hsubl.subset (List.mem_cons_self _ _)
        | cons pc1 rest2 => simpa [hflt] using h1
    · cases hflt : covItems.filter (fun pc => a ∈ pc.2) with
      | nil => simpa [hflt] using h2
      | cons pc0 rest =>
        cases rest with
        | nil =>
          simp only [hflt]
          split
          · exact h2
          · intro pi hpi
            rcases List.mem_append.1 hpi with h | h
            · exact h2 pi h
            · have hpc0 : pc0 ∈ covItems := by
                have hsubl : (covItems.filter (fun pc => a ∈ pc.2)).Sublist covItems :=
                  List.filter_sublist _
                rw [hflt] at hsubl
                exact hsubl.subset (List.mem_cons_self _ _)
              exact ⟨pc0, hpc0, (List.mem_singleton.1 h).symm⟩
        | cons pc1 rest2 => simpa [hflt] using h2

lemma ascList_empty : ascList ∅ = [] := rfl

lemma buildClauses_skip {covItems : List ((ℕ × ℕ) × Finset ℕ)} {pis : List (ℕ × ℕ)}
    {essl : List (ℕ × ℕ)} {m : ℕ}
    (hflt : covItems.filter (fun pc => m ∈ pc.2) = []) (l : List ℕ) :
    buildClauses covItems pis essl (l.filter (fun x => x ≠ m)) =
      buildClauses covItems pis essl l := by
  unfold buildClauses
  apply foldl_filter_id
  intro acc
  simp only [hflt]
  rw [List.foldl_nil]
  rw [if_pos rfl]

/-- C2 (amended): when a still-uncovered target minterm is covered by no
prime implicant, the solver silently skips it (its Petrick clause is
dropped by the `continue`) and returns normally: provided other target
minterms remain, the returned cover is exactly the one computed on the
target without the uncoverable minterm, so the result under-reports and no
defect is signalled. -/
theorem claim2_thm (pis : List (ℕ × ℕ)) (M : Finset ℕ) (n m : ℕ)
    (hm : m ∈ M) (huncov : ∀ pi ∈ pis, m ∉ get_covered_minterms pi n)
    (hne : (M.erase m).Nonempty) :
    essential_prime_implicant_cover pis M n =
      essential_prime_implicant_cover pis (M.erase m) n := by
  by_cases hpis : pis = []
  · subst hpis
    simp [essential_prime_implicant_cover]
  have hMne : M ≠ ∅ := Finset.ne_empty_of_mem hm
  have hM2ne : M.erase m ≠ ∅ := Finset.nonempty_iff_ne_empty.1 hne
  have e1 : coverageItems pis M n = coverageItems pis (M.erase m) n :=
    coverageItems_erase hm huncov
  have hflt : (coverageItems pis (M.erase m) n).filter (fun pc => m ∈ pc.2) = [] := by
    rw [List.filter_eq_nil_iff]
    intro pc hpc
    simp only [decide_eq_true_eq]
    intro hc
    exact (Finset.mem_erase.1 (coverageItems_snd_subset pc hpc hc)).1 rfl
  have hid : ∀ acc : List (ℕ × ℕ) × Finset ℕ,
      (match (coverageItems pis (M.erase m) n).filter (fun pc => m ∈ pc.2) with
        | [pc] => if pc.1 ∈ acc.1 then acc else (acc.1 ++ [pc.1], acc.2 ∪ pc.2)
        | _ => acc) = acc := by
    intro acc
    rw [hflt]
  have e2 : essentialPair (coverageItems pis (M.erase m) n) (ascList M) =
      essentialPair (coverageItems pis (M.erase m) n) (ascList (M.erase m)) := by
    unfold essentialPair
    rw [ascList_erase]
    exact (foldl_filter_id hid (ascList M) ([], ∅)).symm
  have hsnd : ∀ x ∈ (essentialPair (coverageItems pis (M.erase m) n)
      (ascList (M.erase m))).2, x ∈ M.erase m := by
    intro x hx
    have hinv := (essentialPair_fold_inv (coverageItems pis (M.erase m) n)
      (ascList (M.erase m)) ([], ∅) (by simp) (by simp)).1
    obtain ⟨pc, hpc, _, hxpc⟩ := hinv x hx
    exact coverageItems_snd_subset pc hpc hxpc
  have e3gen : ∀ (essl : List (ℕ × ℕ)) (C : Finset ℕ),
      buildClauses (coverageItems pis (M.erase m) n) pis essl
        (ascList ((M \ C).erase m)) =
      buildClauses (coverageItems pis (M.erase m) n) pis essl (ascList (M \ C)) := by
    intro essl C
    rw [ascList_erase]
    exact buildClauses_skip hflt _
  simp only [essential_prime_implicant_cover]
  rw [if_neg (show ¬(pis = [] ∨ M = ∅) by simp [hpis, hMne])]
  rw [if_neg (show ¬(pis = [] ∨ M.erase m = ∅) by simp [hpis, hM2ne])]
  rw [e1, e2]
  obtain ⟨E, hE⟩ : ∃ E, essentialPair (coverageItems pis (M.erase m) n)
      (ascList (M.erase m)) = E := ⟨_, rfl⟩
  have hmC : m ∉ E.2 := by
    intro hc
    rw [← hE] at hc
    exact (Finset.mem_erase.1 (hsnd m hc)).1 rfl
  rw [hE]
  have hrem_rel : (M.erase m) \ E.2 = (M \ E.2).erase m := by
    ext x
    simp only [Finset.mem_sdiff, Finset.mem_erase]
    tauto
  have hrem1ne : ¬(M \ E.2 = ∅) :=
    Finset.ne_empty_of_mem (Finset.mem_sdiff.2 ⟨hm, hmC⟩)
  rw [if_neg hrem1ne]
  by_cases hrem2 : (M.erase m) \ E.2 = ∅
  · rw [if_pos hrem2]
    have hcl : buildClauses (coverageItems pis (M.erase m) n) pis E.1
        (ascList (M \ E.2)) = [] := by
      rw [← e3gen E.1 E.2, ← hrem_rel, hrem2, ascList_empty]
      rfl
    rw [hcl, if_pos rfl]
  · rw [if_neg hrem2]
    have hcl : buildClauses (coverageItems pis (M.erase m) n) pis E.1
        (ascList ((M.erase m) \ E.2)) = buildClauses (coverageItems pis (M.erase m) n)
          pis E.1 (ascList (M \ E.2)) := by
      rw [hrem_rel]
      exact e3gen E.1 E.2
    rw [hcl]

/-- C2 (witness): the skip-equivalence theorem at the concrete instance
where minterm 0 is uncoverable. -/
theorem claim2_witness :
    (0 : ℕ) ∈ ({0, 1} : Finset ℕ) ∧
    essential_prime_implicant_cover [(1, 1)] {0, 1} 1 =
      essential_prime_implicant_cover [(1, 1)] (({0, 1} : Finset ℕ).erase 0) 1 :=
  ⟨by decide, claim2_thm [(1, 1)] {0, 1} 1 0 (by decide) (by decide) (by decide)⟩

/-! ### Popcount and adjacency arithmetic -/

lemma popcountF_stable : ∀ (n f g : ℕ), n ≤ f → n ≤ g → popcountF f n = popcountF g n := by
  intro n
  induction n using Nat.strong_induction_on with
  | _ n ih =>
    intro f g hf hg
    match n, f, g with
    | 0, 0, 0 => rfl
    | 0, 0, g + 1 => rfl
    | 0, f + 1, 0 => rfl
    | 0, f + 1, g + 1 => rfl
    | n + 1, f + 1, g + 1 =>
      show (if n + 1 = 0 then 0 else (n + 1) % 2 + popcountF f ((n + 1) / 2)) =
        (if n + 1 = 0 then 0 else (n + 1) % 2 + popcountF g ((n + 1) / 2))
      rw [if_neg (Nat.succ_ne_zero n), if_neg (Nat.succ_ne_zero n)]
      have hlt : (n + 1) / 2 < n + 1 := Nat.div_lt_self (Nat.succ_pos n) (by norm_num)
      rw [ih ((n + 1) / 2) hlt f g (by omega) (by omega)]

lemma popcount_rec {n : ℕ} (h : n ≠ 0) : popcount n = n % 2 + popcount (n / 2) := by
  unfold popcount
  match n, h with
  | n + 1, _ =>
    show (if n + 1 = 0 then 0 else (n + 1) % 2 + popcountF n ((n + 1) / 2)) = _
    rw [if_neg (Nat.succ_ne_zero n)]
    have hlt : (n + 1) / 2 < n + 1 := Nat.div_lt_self (Nat.succ_pos n) (by norm_num)
    rw [popcountF_stable ((n + 1) / 2) n ((n + 1) / 2) (by omega) (le_refl _)]

lemma popcount_eq_zero : ∀ {n : ℕ}, popcount n = 0 ↔ n = 0 := by
  intro n
  induction n using Nat.strong_induction_on with
  | _ n ih =>
    constructor
    · intro h
      by_contra hne
      rw [popcount_rec hne] at h
      have h2 : n % 2 = 0 := by omega
      have h3 : popcount (n / 2) = 0 := by omega
      have h4 : n / 2 = 0 := (ih (n / 2) (Nat.div_lt_self (Nat.pos_of_ne_zero hne)
        (by norm_num))).1 h3
      omega
    · rintro rfl
      rfl

lemma popcount_eq_one : ∀ {n : ℕ}, popcount n = 1 → ∃ i : ℕ, n = 2 ^ i := by
  intro n
  induction n using Nat.strong_induction_on with
  | _ n ih =>
    intro h
    have hne : n ≠ 0 := by
      rintro rfl
      simp [popcount_zero] at h
    rw [popcount_rec hne] at h
    rcases Nat.mod_two_eq_zero_or_one n with h2 | h2
    · rw [h2] at h
      have h3 : popcount (n / 2) = 1 := by omega
      obtain ⟨i, hi⟩ := ih (n / 2) (Nat.div_lt_self (Nat.pos_of_ne_zero hne) (by norm_num)) h3
      refine ⟨i + 1, ?_⟩
      have : n = 2 * (n / 2) := by omega
      rw [this, hi, pow_succ]
      ring
    · rw [h2] at h
      have h3 : popcount (n / 2) = 0 := by omega
      have h4 : n / 2 = 0 := popcount_eq_zero.1 h3
      have : n = 1 := by omega
      exact ⟨0, by simpa using this⟩

lemma adjacent_pow (u v : ℕ) (h : adjacent_cells u v = true) : ∃ i : ℕ, u ^^^ v = 2 ^ i := by
  unfold adjacent_cells at h
  exact popcount_eq_one (by simpa using h)

lemma adjacent_land (u v : ℕ) (h : adjacent_cells u v = true) :
    (u &&& v = u ∧ u < v) ∨ (u &&& v = v ∧ v < u) := by
  obtain ⟨i, hi⟩ := adjacent_pow u v h
  have hbit : ∀ j, j ≠ i → Nat.testBit u j = Nat.testBit v j := by
    intro j hj
    have := congrArg (fun z => Nat.testBit z j) hi
    simp only [Nat.testBit_xor, Nat.testBit_two_pow] at this
    have h2 : decide (i = j) = false := by simp [Ne.symm hj]
    rw [h2] at this
    revert this
    cases Nat.testBit u j <;> cases Nat.testBit v j <;> simp
  have hbiti : Nat.testBit u i ≠ Nat.testBit v i := by
    have := congrArg (fun z => Nat.testBit z i) hi
    simp only [Nat.testBit_xor, Nat.testBit_two_pow] at this
    have hdt : (decide True) = true := rfl
    rw [hdt] at this
    revert this
    cases Nat.testBit u i <;> cases Nat.testBit v i <;> simp
  by_cases hu : Nat.testBit u i = true
  · have hv : Nat.testBit v i = false := by
      revert hbiti
      rw [hu]
      cases Nat.testBit v i <;> simp
    right
    constructor
    · apply Nat.eq_of_testBit_eq
      intro j
      rw [Nat.testBit_land]
      by_cases hj : j = i
      · subst hj
        rw [hu, hv]
        rfl
      · rw [hbit j hj, Bool.and_self]
    · exact Nat.lt_of_testBit i hv hu (fun j hj => (hbit j (by omega)).symm)
  · have hu' : Nat.testBit u i = false := by revert hu; cases Nat.testBit u i <;> simp
    have hv : Nat.testBit v i = true := by
      revert hbiti
      rw [hu']
      cases Nat.testBit v i <;> simp
    left
    constructor
    · apply Nat.eq_of_testBit_eq
      intro j
      rw [Nat.testBit_land]
      by_cases hj : j = i
      · subst hj
        rw [hu', hv]
        rfl
      · rw [hbit j hj, Bool.and_self]
    · exact Nat.lt_of_testBit i hu' hv (fun j hj => hbit j (by omega))

lemma land_chain {u w t : ℕ} (h1 : u &&& w = u) (h2 : w &&& t = w) : u &&& t = u := by
  calc u &&& t = (u &&& w) &&& t := by rw [h1]
    _ = u &&& (w &&& t) := Nat.land_assoc u w t
    _ = u &&& w := by rw [h2]
    _ = u := h1

lemma land_absorb (t v : ℕ) : (t &&& v) &&& t = t &&& v := by
  apply Nat.eq_of_testBit_eq
  intro j
  simp only [Nat.testBit_land]
  cases Nat.testBit t j <;> cases Nat.testBit v j <;> rfl

/-! ### Size and key structure of merge generations -/

lemma ascList_length (s : Finset ℕ) : (ascList s).length = s.card := by
  have h1 : (ascList s).toFinset = s := by
    ext x
    rw [List.mem_toFinset, mem_ascList]
  rw [← List.toFinset_card_of_nodup (ascList_nodup s), h1]

lemma dictSet_keys_sub : ∀ (l : List (ℕ × ℕ)) (k v x : ℕ),
    x ∈ (dictSet l k v).map Prod.fst → x = k ∨ x ∈ l.map Prod.fst := by
  intro l
  induction l with
  | nil =>
    intro k v x hx
    simp only [dictSet, List.map_cons, List.map_nil, List.mem_singleton] at hx
    exact Or.inl hx
  | cons p rest ih =>
    intro k v x hx
    obtain ⟨k0, v0⟩ := p
    simp only [dictSet] at hx
    split at hx
    · next heq =>
      simp only [List.map_cons, List.mem_cons] at hx
      rcases hx with rfl | hx
      · exact Or.inr (List.mem_cons_self _ _)
      · exact Or.inr (List.mem_cons_of_mem _ hx)
    · simp only [List.map_cons, List.mem_cons] at hx
      rcases hx with rfl | hx
      · exact Or.inr (List.mem_cons_self _ _)
      · rcases ih k v x hx with h | h
        · exact Or.inl h
        · exact Or.inr (List.mem_cons_of_mem _ h)

lemma dictSet_keys_nodup : ∀ (l : List (ℕ × ℕ)) (k v : ℕ),
    (l.map Prod.fst).Nodup → ((dictSet l k v).map Prod.fst).Nodup := by
  intro l
  induction l with
  | nil =>
    intro k v _
    simp [dictSet]
  | cons p rest ih =>
    intro k v hnd
    obtain ⟨k0, v0⟩ := p
    simp only [List.map_cons, List.nodup_cons] at hnd
    simp only [dictSet]
    split
    · next heq =>
      simp only [List.map_cons, List.nodup_cons]
      exact hnd
    · next hne =>
      simp only [List.map_cons, List.nodup_cons]
      refine ⟨?_, ih k v hnd.2⟩
      intro hmem
      rcases dictSet_keys_sub rest k v k0 hmem with h | h
      · exact hne h
      · exact hnd.1 h

lemma mergeFold_nodup : ∀ (pairs : List ((ℕ × ℕ) × (ℕ × ℕ)))
    (st : List (ℕ × ℕ) × Finset ℕ), (st.1.map Prod.fst).Nodup →
    (((pairs.foldl mergeStep st).1).map Prod.fst).Nodup := by
  intro pairs
  induction pairs with
  | nil => exact fun st h => h
  | cons pr rest ih =>
    intro st hst
    rw [List.foldl_cons]
    apply ih
    by_cases hadj : adjacent_cells pr.1.1 pr.2.1 = true
    · simp only [mergeStep, hadj, if_true]
      exact dictSet_keys_nodup _ _ _ hst
    · simp only [mergeStep]
      rw [if_neg hadj]
      exact hst

lemma mergePass_nodup (level : List (ℕ × ℕ)) :
    ((mergePass level).1.map Prod.fst).Nodup := by
  unfold mergePass
  exact mergeFold_nodup _ ([], ∅) (by simp)

lemma mergePass_length (level : List (ℕ × ℕ)) (hdiag : ∀ p ∈ level, p.2 = p.1)
    (hnd : (level.map Prod.fst).Nodup) (hne : level ≠ []) :
    (mergePass level).1.length < level.length := by
  obtain ⟨hd1, hmem, hused⟩ := mergePass_spec level hdiag
  set K : Finset ℕ := (level.map Prod.fst).toFinset with hK
  have hKne : K.Nonempty := by
    obtain ⟨p, hp⟩ := List.exists_mem_of_ne_nil level hne
    exact ⟨p.1, List.mem_toFinset.2 (List.mem_map.2 ⟨p, hp, rfl⟩)⟩
  set mx : ℕ := K.max' hKne with hmx
  have hsub : ((mergePass level).1.map Prod.fst).toFinset ⊆ K.erase mx := by
    intro x hx
    obtain ⟨p, hp, hpx⟩ := List.mem_map.1 (List.mem_toFinset.1 hx)
    obtain ⟨px, pm⟩ := p
    simp only at hpx
    have hpm : pm = px := hd1 _ hp
    rw [← hpx]
    rw [hpm] at hp
    obtain ⟨-, u, v, hu, hv, hadj, ht⟩ := (hmem px px).1 hp
    have huK : u ∈ K := List.mem_toFinset.2 (List.mem_map.2 ⟨(u, u), hu, rfl⟩)
    have hvK : v ∈ K := List.mem_toFinset.2 (List.mem_map.2 ⟨(v, v), hv, rfl⟩)
    rcases adjacent_land u v hadj with ⟨he, hlt⟩ | ⟨he, hlt⟩
    · rw [he] at ht
      subst ht
      refine Finset.mem_erase.2 ⟨?_, huK⟩
      have := K.le_max' v hvK
      omega
    · rw [he] at ht
      subst ht
      refine Finset.mem_erase.2 ⟨?_, hvK⟩
      have := K.le_max' u huK
      omega
  have hmxK : mx ∈ K := K.max'_mem hKne
  have h1 : (mergePass level).1.length =
      ((mergePass level).1.map Prod.fst).toFinset.card := by
    rw [List.toFinset_card_of_nodup (mergePass_nodup level), List.length_map]
  have h2 : K.card ≤ level.length := by
    calc K.card ≤ (level.map Prod.fst).length := List.toFinset_card_le _
      _ = level.length := List.length_map _ _
  have h3 : ((mergePass level).1.map Prod.fst).toFinset.card ≤ (K.erase mx).card :=
    Finset.card_le_card hsub
  rw [Finset.card_erase_of_mem hmxK] at h3
  have h4 : 0 < K.card := Finset.card_pos.2 hKne
  omega

/-! ### Prime implicants: membership and covering -/

lemma levelLoop_mem : ∀ (fuel : ℕ) (level : List (ℕ × ℕ)) (S : Finset ℕ),
    (∀ p ∈ level, p.2 = p.1) → (∀ p ∈ level, p.1 ∈ S) →
    ∀ p ∈ levelLoop fuel level, p.2 = p.1 ∧ p.1 ∈ S := by
  intro fuel
  induction fuel with
  | zero =>
    intro level S _ _ p hp
    simp [levelLoop] at hp
  | succ f ih =>
    intro level S hdiag hkeys p hp
    match level with
    | [] => simp [levelLoop] at hp
    | x :: xs =>
      simp only [levelLoop] at hp
      rcases List.mem_append.1 hp with h | h
      · have h2 := List.mem_filter.1 h
        exact ⟨hdiag _ h2.1, hkeys _ h2.1⟩
      · obtain ⟨hd1, hmem, -⟩ := mergePass_spec (x :: xs) hdiag
        refine ih (mergePass (x :: xs)).1 S hd1 ?_ p h
        intro q hq
        obtain ⟨qt, qm⟩ := q
        have hqm : qm = qt := hd1 _ hq
        rw [hqm] at hq
        obtain ⟨-, u, v, hu, hv, hadj, ht⟩ := (hmem qt qt).1 hq
        show qt ∈ S
        rcases adjacent_land u v hadj with ⟨he, -⟩ | ⟨he, -⟩
        · rw [ht, he]
          exact hkeys _ hu
        · rw [ht, he]
          exact hkeys _ hv

lemma levelLoop_covers : ∀ (fuel : ℕ) (level : List (ℕ × ℕ)),
    (∀ p ∈ level, p.2 = p.1) → ((level.map Prod.fst).Nodup) →
    level.length < fuel →
    ∀ t, (t, t) ∈ level → ∃ u, (u, u) ∈ levelLoop fuel level ∧ u &&& t = u := by
  intro fuel
  induction fuel with
  | zero =>
    intro level _ _ hlen
    omega
  | succ f ih =>
    intro level hdiag hnd hlen t ht
    match level, ht with
    | x :: xs, ht =>
      obtain ⟨hd1, hmem, hused⟩ := mergePass_spec (x :: xs) hdiag
      simp only [levelLoop]
      by_cases hu : t ∈ (mergePass (x :: xs)).2
      · obtain ⟨-, v, hv, hadj⟩ := (hused t).1 hu
        have hw : (t &&& v, t &&& v) ∈ (mergePass (x :: xs)).1 :=
          (hmem (t &&& v) (t &&& v)).2 ⟨rfl, t, v, ht, hv, hadj, rfl⟩
        have hlen2 : (mergePass (x :: xs)).1.length < f := by
          have := mergePass_length (x :: xs) hdiag hnd (by simp)
          have hl : (x :: xs).length < f + 1 := hlen
          omega
        obtain ⟨w, hwl, hww⟩ := ih (mergePass (x :: xs)).1 hd1
          (mergePass_nodup (x :: xs)) hlen2 (t &&& v) hw
        refine ⟨w, List.mem_append.2 (Or.inr hwl), ?_⟩
        exact land_chain hww (land_absorb t v)
      · refine ⟨t, List.mem_append.2 (Or.inl ?_),
          by apply Nat.eq_of_testBit_eq; intro j; rw [Nat.testBit_land, Bool.and_self]⟩
        exact List.mem_filter.2 ⟨ht, by simpa using hu⟩

lemma fpi_diag_mem (M : Finset ℕ) :
    ∀ p ∈ find_prime_implicants M, p.2 = p.1 ∧ p.1 ∈ M := by
  intro p hp
  unfold find_prime_implicants at hp
  split at hp
  · simp at hp
  · refine levelLoop_mem _ (initialLevel M) M ?_ ?_ p hp
    · intro q hq
      obtain ⟨m, hm, hm2⟩ := List.mem_map.1 hq
      rw [← hm2]
    · intro q hq
      obtain ⟨m, hm, hm2⟩ := List.mem_map.1 hq
      rw [← hm2]
      exact mem_ascList.1 hm

lemma fpi_covers (M : Finset ℕ) :
    ∀ m ∈ M, ∃ u, (u, u) ∈ find_prime_implicants M ∧ u &&& m = u := by
  intro m hm
  have hMne : M ≠ ∅ := by
    intro h
    rw [h] at hm
    exact absurd hm (Finset.not_mem_empty m)
  unfold find_prime_implicants
  rw [if_neg hMne]
  refine levelLoop_covers (M.card + 1) (initialLevel M) ?_ ?_ ?_ m ?_
  · intro q hq
    obtain ⟨m', hm', hm2⟩ := List.mem_map.1 hq
    rw [← hm2]
  · unfold initialLevel
    rw [List.map_map]
    have : (Prod.fst ∘ fun m => (m, m)) = (id : ℕ → ℕ) := rfl
    rw [this, List.map_id]
    exact ascList_nodup M
  · unfold initialLevel
    rw [List.length_map, ascList_length]
    omega
  · exact List.mem_map.2 ⟨m, mem_ascList.2 hm, rfl⟩

/-! ### Index bookkeeping of the exact-cover solver -/

lemma buildClauses_eq (covItems : List ((ℕ × ℕ) × Finset ℕ)) (pis : List (ℕ × ℕ))
    (essential : List (ℕ × ℕ)) (sortedRem : List ℕ) :
    buildClauses covItems pis essential sortedRem =
      sortedRem.foldl
        (fun cls m =>
          if clauseIdxs covItems pis m = ∅ then cls
          else if clauseIdxs covItems pis m \ essentialIdxSet pis essential = ∅ then cls
          else cls ++ [clauseIdxs covItems pis m \ essentialIdxSet pis essential]) [] := rfl

lemma lastIdx?_lt_getD [DecidableEq α] :
    ∀ (l : List α) (a : α) (i : ℕ) (d : α),
      lastIdx? l a = some i → i < l.length ∧ l.getD i d = a := by
  intro l
  induction l with
  | nil =>
    intro a i d h
    simp [lastIdx?] at h
  | cons b bs ih =>
    intro a i d h
    unfold lastIdx? at h
    cases hbs : lastIdx? bs a with
    | some j =>
      rw [hbs] at h
      have hi : i = j + 1 := (Option.some.inj h).symm
      subst hi
      obtain ⟨h1, h2⟩ := ih a j d hbs
      exact ⟨by simpa using Nat.succ_lt_succ h1, by simpa using h2⟩
    | none =>
      rw [hbs] at h
      change (if b = a then some 0 else none) = some i at h
      by_cases hba : b = a
      · rw [if_pos hba] at h
        have hi : i = 0 := (Option.some.inj h).symm
        subst hi
        refine ⟨Nat.succ_pos _, ?_⟩
        rw [List.getD_cons_zero]
        exact hba
      · rw [if_neg hba] at h
        exact absurd h (by simp)

lemma lastIdx?_isSome_of_mem [DecidableEq α] :
    ∀ (l : List α) (a : α), a ∈ l → ∃ i, lastIdx? l a = some i := by
  intro l
  induction l with
  | nil =>
    intro a ha
    exact absurd ha (List.not_mem_nil a)
  | cons b bs ih =>
    intro a ha
    unfold lastIdx?
    cases hbs : lastIdx? bs a with
    | some j => exact ⟨j + 1, rfl⟩
    | none =>
      have hab : a = b := by
        rcases List.mem_cons.1 ha with h | h
        · exact h
        · obtain ⟨i, hi⟩ := ih a h
          rw [hi] at hbs
          exact absurd hbs (by simp)
      rw [if_pos hab.symm]
      exact ⟨0, rfl⟩

lemma lastIdx?_inj [DecidableEq α] {l : List α} {a b : α} {i : ℕ}
    (ha : lastIdx? l a = some i) (hb : lastIdx? l b = some i) : a = b := by
  have h1 := (lastIdx?_lt_getD l a i a ha).2
  have h2 := (lastIdx?_lt_getD l b i a hb).2
  rw [← h1, ← h2]

lemma indexOfPi_getD {pis : List (ℕ × ℕ)} {pi : ℕ × ℕ} (h : pi ∈ pis) :
    lastIdx? pis pi = some (indexOfPi pis pi) ∧
      pis.getD (indexOfPi pis pi) (0, 0) = pi ∧ indexOfPi pis pi < pis.length := by
  obtain ⟨i, hi⟩ := lastIdx?_isSome_of_mem pis pi h
  have hidx : indexOfPi pis pi = i := by
    unfold indexOfPi
    rw [hi]
    rfl
  obtain ⟨h1, h2⟩ := lastIdx?_lt_getD pis pi i (0, 0) hi
  rw [hidx]
  exact ⟨hi, h2, h1⟩

lemma dedupF_nodup [DecidableEq α] : ∀ (l seen : List α), (dedupF seen l).Nodup := by
  intro l
  induction l with
  | nil => intro seen; exact List.nodup_nil
  | cons a as ih =>
    intro seen
    unfold dedupF
    split
    · exact ih seen
    · refine List.nodup_cons.2 ⟨?_, ih (a :: seen)⟩
      intro hmem
      exact ((mem_dedupF as (a :: seen) a).1 hmem).2 (List.mem_cons_self _ _)

lemma keys_nodup_inj {α β : Type} {l : List (α × β)}
    (hnd : (l.map Prod.fst).Nodup) :
    ∀ p ∈ l, ∀ q ∈ l, p.1 = q.1 → p = q := by
  induction l with
  | nil =>
    intro p hp
    exact absurd hp (List.not_mem_nil p)
  | cons x xs ih =>
    intro p hp q hq hpq
    simp only [List.map_cons, List.nodup_cons] at hnd
    rcases List.mem_cons.1 hp with rfl | hp' <;> rcases List.mem_cons.1 hq with rfl | hq'
    · rfl
    · exact absurd (List.mem_map.2 ⟨q, hq', hpq.symm⟩) hnd.1
    · exact absurd (List.mem_map.2 ⟨p, hp', hpq⟩) hnd.1
    · exact ih hnd.2 p hp' q hq' hpq

lemma coverageItems_keys (pis : List (ℕ × ℕ)) (M : Finset ℕ) (n : ℕ) :
    (coverageItems pis M n).map Prod.fst = dedupF [] pis := by
  unfold coverageItems
  rw [List.map_map]
  have h : (Prod.fst ∘ fun pi => (pi, get_covered_minterms pi n ∩ M)) =
      (id : ℕ × ℕ → ℕ × ℕ) := rfl
  rw [h, List.map_id]

lemma coverageItems_keys_nodup (pis : List (ℕ × ℕ)) (M : Finset ℕ) (n : ℕ) :
    ((coverageItems pis M n).map Prod.fst).Nodup := by
  rw [coverageItems_keys]
  exact dedupF_nodup pis []

lemma mem_foldl_insert {α β : Type} [DecidableEq β] (g : α → β) :
    ∀ (l : List α) (init : Finset β) (x : β),
      x ∈ l.foldl (fun s a => insert (g a) s) init ↔ x ∈ init ∨ ∃ a ∈ l, x = g a := by
  intro l
  induction l with
  | nil => intro init x; simp
  | cons a as ih =>
    intro init x
    rw [List.foldl_cons, ih]
    simp only [Finset.mem_insert, List.mem_cons]
    constructor
    · rintro ((rfl | h) | ⟨a', ha', rfl⟩)
      · exact Or.inr ⟨a, Or.inl rfl, rfl⟩
      · exact Or.inl h
      · exact Or.inr ⟨a', Or.inr ha', rfl⟩
    · rintro (h | ⟨a', (rfl | ha'), rfl⟩)
      · exact Or.inl (Or.inr h)
      · exact Or.inl (Or.inl rfl)
      · exact Or.inr ⟨a', ha', rfl⟩

lemma mem_essentialIdxSet_fold {pis : List (ℕ × ℕ)} :
    ∀ (l : List (ℕ × ℕ)) (init : Finset ℕ) (i : ℕ),
      i ∈ l.foldl (fun s epi => match lastIdx? pis epi with
        | some j => insert j s
        | none => s) init ↔ i ∈ init ∨ ∃ epi ∈ l, lastIdx? pis epi = some i := by
  intro l
  induction l with
  | nil => intro init i; simp
  | cons e es ih =>
    intro init i
    rw [List.foldl_cons]
    cases he : lastIdx? pis e with
    | some j =>
      simp only [he]
      rw [ih]
      simp only [Finset.mem_insert, List.mem_cons]
      constructor
      · rintro ((rfl | h) | ⟨e', he', h2⟩)
        · exact Or.inr ⟨e, Or.inl rfl, he⟩
        · exact Or.inl h
        · exact Or.inr ⟨e', Or.inr he', h2⟩
      · rintro (h | ⟨e', (rfl | he'), h2⟩)
        · exact Or.inl (Or.inr h)
        · rw [he] at h2
          exact Or.inl (Or.inl ((Option.some.inj h2).symm))
        · exact Or.inr ⟨e', he', h2⟩
    | none =>
      simp only [he]
      rw [ih]
      simp only [List.mem_cons]
      constructor
      · rintro (h | ⟨e', he', h2⟩)
        · exact Or.inl h
        · exact Or.inr ⟨e', Or.inr he', h2⟩
      · rintro (h | ⟨e', (rfl | he'), h2⟩)
        · exact Or.inl h
        · rw [he] at h2
          exact absurd h2 (by simp)
        · exact Or.inr ⟨e', he', h2⟩

lemma mem_essentialIdxSet {pis essential : List (ℕ × ℕ)} {i : ℕ} :
    i ∈ essentialIdxSet pis essential ↔
      ∃ epi ∈ essential, lastIdx? pis epi = some i := by
  unfold essentialIdxSet
  rw [mem_essentialIdxSet_fold]
  simp

lemma mem_clauseIdxs {covItems : List ((ℕ × ℕ) × Finset ℕ)} {pis : List (ℕ × ℕ)}
    {m i : ℕ} :
    i ∈ clauseIdxs covItems pis m ↔
      ∃ pc ∈ covItems, m ∈ pc.2 ∧ i = indexOfPi pis pc.1 := by
  unfold clauseIdxs
  rw [mem_foldl_insert]
  simp only [Finset.not_mem_empty, false_or, List.mem_filter, decide_eq_true_eq]
  constructor
  · rintro ⟨pc, ⟨h1, h2⟩, h3⟩
    exact ⟨pc, h1, h2, h3⟩
  · rintro ⟨pc, h1, h2, h3⟩
    exact ⟨pc, ⟨h1, h2⟩, h3⟩

/-! ### Coverage tracking of the essential-implicant loop -/

lemma essentialPair_fold_covsub (covItems : List ((ℕ × ℕ) × Finset ℕ))
    (hnd : (covItems.map Prod.fst).Nodup) :
    ∀ (sl : List ℕ) (st : List (ℕ × ℕ) × Finset ℕ),
      (∀ pc ∈ covItems, pc.1 ∈ st.1 → pc.2 ⊆ st.2) →
      ∀ pc ∈ covItems, pc.1 ∈ (sl.foldl (fun acc m =>
          match covItems.filter (fun pc => m ∈ pc.2) with
          | [pc] => if pc.1 ∈ acc.1 then acc else (acc.1 ++ [pc.1], acc.2 ∪ pc.2)
          | _ => acc) st).1 →
        pc.2 ⊆ (sl.foldl (fun acc m =>
          match covItems.filter (fun pc => m ∈ pc.2) with
          | [pc] => if pc.1 ∈ acc.1 then acc else (acc.1 ++ [pc.1], acc.2 ∪ pc.2)
          | _ => acc) st).2 := by
  intro sl
  induction sl with
  | nil => intro st h; exact h
  | cons a as ih =>
    intro st h
    rw [List.foldl_cons]
    apply ih
    cases hflt : covItems.filter (fun pc => a ∈ pc.2) with
    | nil => simpa [hflt] using h
    | cons pc0 rest =>
      cases rest with
      | nil =>
        simp only [hflt]
        split
        · exact h
        · intro pc hpc hpc1
          have hpc0mem : pc0 ∈ covItems := by
            have hsubl : (covItems.filter (fun pc => a ∈ pc.2)).Sublist covItems :=
              List.filter_sublist _
            rw [hflt] at hsubl
            exact hsubl.subset (List.mem_cons_self _ _)
          rcases List.mem_append.1 hpc1 with h1 | h1
          · exact (h pc hpc h1).trans Finset.subset_union_left
          · have hkey : pc.1 = pc0.1 := List.mem_singleton.1 h1
            have hpcpc0 : pc = pc0 := keys_nodup_inj hnd pc hpc pc0 hpc0mem hkey
            rw [hpcpc0]
            exact Finset.subset_union_right
      | cons pc1 rest2 => simpa [hflt] using h

/-! ### Petrick clause construction -/

lemma buildClauses_fold_sup {covItems : List ((ℕ × ℕ) × Finset ℕ)}
    {pis : List (ℕ × ℕ)} {essential : List (ℕ × ℕ)} :
    ∀ (l : List ℕ) (init : List (Finset ℕ)) (x : Finset ℕ), x ∈ init →
      x ∈ l.foldl (fun cls m =>
        if clauseIdxs covItems pis m = ∅ then cls
        else if clauseIdxs covItems pis m \ essentialIdxSet pis essential = ∅ then cls
        else cls ++ [clauseIdxs covItems pis m \ essentialIdxSet pis essential]) init := by
  intro l
  induction l with
  | nil => intro init x hx; exact hx
  | cons a as ih =>
    intro init x hx
    rw [List.foldl_cons]
    apply ih
    split
    · exact hx
    · split
      · exact hx
      · exact List.mem_append.2 (Or.inl hx)

lemma buildClauses_mem {covItems : List ((ℕ × ℕ) × Finset ℕ)}
    {pis : List (ℕ × ℕ)} {essential : List (ℕ × ℕ)} :
    ∀ (l : List ℕ) (init : List (Finset ℕ)) (m : ℕ), m ∈ l →
      clauseIdxs covItems pis m ≠ ∅ →
      clauseIdxs covItems pis m \ essentialIdxSet pis essential ≠ ∅ →
      (clauseIdxs covItems pis m \ essentialIdxSet pis essential) ∈
        l.foldl (fun cls m =>
          if clauseIdxs covItems pis m = ∅ then cls
          else if clauseIdxs covItems pis m \ essentialIdxSet pis essential = ∅ then cls
          else cls ++ [clauseIdxs covItems pis m \ essentialIdxSet pis essential]) init := by
  intro l
  induction l with
  | nil =>
    intro init m hm
    exact absurd hm (List.not_mem_nil m)
  | cons a as ih =>
    intro init m hm h1 h2
    rw [List.foldl_cons]
    rcases List.mem_cons.1 hm with rfl | hm'
    · rw [if_neg h1, if_neg h2]
      apply buildClauses_fold_sup
      exact List.mem_append.2 (Or.inr (List.mem_singleton.2 rfl))
    · exact ih _ m hm' h1 h2

lemma buildClauses_sound {covItems : List ((ℕ × ℕ) × Finset ℕ)}
    {pis : List (ℕ × ℕ)} {essential : List (ℕ × ℕ)} :
    ∀ (l : List ℕ) (init : List (Finset ℕ)) (cl : Finset ℕ),
      cl ∈ l.foldl (fun cls m =>
        if clauseIdxs covItems pis m = ∅ then cls
        else if clauseIdxs covItems pis m \ essentialIdxSet pis essential = ∅ then cls
        else cls ++ [clauseIdxs covItems pis m \ essentialIdxSet pis essential]) init →
      cl ∈ init ∨ ∃ m ∈ l,
        cl = clauseIdxs covItems pis m \ essentialIdxSet pis essential ∧ cl ≠ ∅ := by
  intro l
  induction l with
  | nil => intro init cl hcl; exact Or.inl hcl
  | cons a as ih =>
    intro init cl hcl
    rw [List.foldl_cons] at hcl
    rcases ih _ cl hcl with h | ⟨m, hm, hcl2, hne⟩
    · by_cases h1 : clauseIdxs covItems pis a = ∅
      · rw [if_pos h1] at h
        exact Or.inl h
      · by_cases h2 : clauseIdxs covItems pis a \ essentialIdxSet pis essential = ∅
        · rw [if_neg h1, if_pos h2] at h
          exact Or.inl h
        · rw [if_neg h1, if_neg h2] at h
          rcases List.mem_append.1 h with h3 | h3
          · exact Or.inl h3
          · refine Or.inr ⟨a, List.mem_cons_self _ _, List.mem_singleton.1 h3, ?_⟩
            rw [List.mem_singleton.1 h3]
            exact h2
    · exact Or.inr ⟨m, List.mem_cons_of_mem _ hm, hcl2, hne⟩

/-! ### Petrick product fold -/

lemma reduce_fold_mem :
    ∀ (l acc : List (Finset ℕ)) (q : Finset ℕ),
      q ∈ l.foldl (fun minimal p =>
        if minimal.any (fun q => q ⊆ p) then minimal else minimal ++ [p]) acc →
      q ∈ acc ∨ q ∈ l := by
  intro l
  induction l with
  | nil => intro acc q h; exact Or.inl h
  | cons a as ih =>
    intro acc q h
    rw [List.foldl_cons] at h
    rcases ih _ q h with h2 | h2
    · split at h2
      · exact Or.inl h2
      · rcases List.mem_append.1 h2 with h3 | h3
        · exact Or.inl h3
        · exact Or.inr (List.mem_cons.2 (Or.inl (List.mem_singleton.1 h3)))
    · exact Or.inr (List.mem_cons_of_mem _ h2)

lemma reduce_products_subset {lc : List ℕ} {prods : List (Finset ℕ)} {q : Finset ℕ}
    (h : q ∈ reduce_products lc prods) : q ∈ prods := by
  unfold reduce_products at h
  rcases reduce_fold_mem _ _ q h with h2 | h2
  · exact absurd h2 (List.not_mem_nil q)
  · exact (mem_insSort (prodLe lc)).1 h2

lemma reduce_fold_ne_nil :
    ∀ (l acc : List (Finset ℕ)), (acc ≠ [] ∨ l ≠ []) →
      l.foldl (fun minimal p =>
        if minimal.any (fun q => q ⊆ p) then minimal else minimal ++ [p]) acc ≠ [] := by
  intro l
  induction l with
  | nil =>
    intro acc h
    rcases h with h | h
    · exact h
    · exact absurd rfl h
  | cons a as ih =>
    intro acc h
    rw [List.foldl_cons]
    apply ih
    left
    by_cases hany : acc.any (fun q => q ⊆ a) = true
    · rw [if_pos hany]
      intro hnil
      rw [hnil] at hany
      simp at hany
    · rw [if_neg hany]
      simp

lemma reduce_products_ne_nil {lc : List ℕ} {prods : List (Finset ℕ)}
    (h : prods ≠ []) : reduce_products lc prods ≠ [] := by
  unfold reduce_products
  apply reduce_fold_ne_nil
  right
  intro hnil
  have := (insSort_perm (prodLe lc) prods).length_eq
  rw [hnil] at this
  exact h (List.length_eq_zero.1 this.symm)

lemma petrickStep_mem {lc : List ℕ} {products : List (Finset ℕ)} {c : Finset ℕ}
    {p1 : Finset ℕ} (h : p1 ∈ petrickStep lc products c) :
    ∃ p0 ∈ products, ∃ idx ∈ c, p1 = insert idx p0 := by
  unfold petrickStep at h
  have h2 := reduce_products_subset h
  obtain ⟨p0, hp0, h3⟩ := List.mem_flatMap.1 h2
  obtain ⟨idx, hidx, h4⟩ := List.mem_map.1 h3
  exact ⟨p0, hp0, idx, mem_ascList.1 hidx, h4.symm⟩

lemma petrickStep_ne_nil {lc : List ℕ} {products : List (Finset ℕ)} {c : Finset ℕ}
    (hp : products ≠ []) (hc : c ≠ ∅) : petrickStep lc products c ≠ [] := by
  unfold petrickStep
  apply reduce_products_ne_nil
  obtain ⟨p0, hp0⟩ := List.exists_mem_of_ne_nil products hp
  obtain ⟨x, hx⟩ := Finset.nonempty_iff_ne_empty.2 hc
  apply List.ne_nil_of_mem (a := insert x p0)
  exact List.mem_flatMap.2 ⟨p0, hp0, List.mem_map.2 ⟨x, mem_ascList.2 hx, rfl⟩⟩

lemma petrick_fold_inv {lc : List ℕ} :
    ∀ (cls : List (Finset ℕ)) (init : List (Finset ℕ)) (p : Finset ℕ),
      p ∈ cls.foldl (petrickStep lc) init →
      ∃ p0 ∈ init, p0 ⊆ p ∧ ∀ cl ∈ cls, ∃ i, i ∈ p ∧ i ∈ cl := by
  intro cls
  induction cls with
  | nil =>
    intro init p hp
    refine ⟨p, hp, Finset.Subset.refl p, ?_⟩
    intro cl hcl
    exact absurd hcl (List.not_mem_nil cl)
  | cons c cs ih =>
    intro init p hp
    rw [List.foldl_cons] at hp
    obtain ⟨p1, hp1, hp1sub, hhits⟩ := ih _ p hp
    obtain ⟨p0, hp0, idx, hidx, hins⟩ := petrickStep_mem hp1
    refine ⟨p0, hp0, ?_, ?_⟩
    · refine Finset.Subset.trans ?_ hp1sub
      rw [hins]
      exact Finset.subset_insert idx p0
    · intro cl hcl
      rcases List.mem_cons.1 hcl with rfl | hcl'
      · refine ⟨idx, ?_, hidx⟩
        apply hp1sub
        rw [hins]
        exact Finset.mem_insert_self idx p0
      · exact hhits cl hcl'

lemma petrick_fold_ne_nil {lc : List ℕ} :
    ∀ (cls : List (Finset ℕ)) (init : List (Finset ℕ)),
      (∀ cl ∈ cls, cl ≠ ∅) → init ≠ [] →
      cls.foldl (petrickStep lc) init ≠ [] := by
  intro cls
  induction cls with
  | nil => intro init _ h; exact h
  | cons c cs ih =>
    intro init hcl hinit
    rw [List.foldl_cons]
    refine ih _ (fun cl h => hcl cl (List.mem_cons_of_mem _ h)) ?_
    exact petrickStep_ne_nil hinit (hcl c (List.mem_cons_self _ _))

lemma chooseProduct_mem {lc : List ℕ} {products : List (Finset ℕ)}
    (h : products ≠ []) : chooseProduct lc products ∈ products := by
  unfold chooseProduct
  have hmapne : products.map (product_cost lc) ≠ [] := by
    intro hnil
    exact h (List.map_eq_nil_iff.1 hnil)
  have hbc := pyMin_mem costLt (0, 0) _ hmapne
  obtain ⟨p0, hp0, hcost⟩ := List.mem_map.1 hbc
  have hfne : products.filter
      (fun p => product_cost lc p = pyMin costLt (0, 0) (products.map (product_cost lc))) ≠ [] := by
    apply List.ne_nil_of_mem (a := p0)
    exact List.mem_filter.2 ⟨hp0, by simp [hcost]⟩
  have hmem := pyMin_mem (fun p q => lexLtN (ascList p) (ascList q)) ∅ _ hfne
  exact (List.mem_filter.1 hmem).1

lemma petrick_fold_idx {lc : List ℕ} :
    ∀ (cls : List (Finset ℕ)) (init : List (Finset ℕ)) (Q : ℕ → Prop),
      (∀ p ∈ init, ∀ i ∈ p, Q i) → (∀ cl ∈ cls, ∀ i ∈ cl, Q i) →
      ∀ p ∈ cls.foldl (petrickStep lc) init, ∀ i ∈ p, Q i := by
  intro cls
  induction cls with
  | nil => intro init Q hinit _ p hp; exact hinit p hp
  | cons c cs ih =>
    intro init Q hinit hcls p hp
    rw [List.foldl_cons] at hp
    refine ih _ Q ?_ (fun cl h => hcls cl (List.mem_cons_of_mem _ h)) p hp
    intro p1 hp1 i hi
    obtain ⟨p0, hp0, idx, hidx, rfl⟩ := petrickStep_mem hp1
    rcases Finset.mem_insert.1 hi with rfl | hi'
    · exact hcls c (List.mem_cons_self _ _) i hidx
    · exact hinit p0 hp0 i hi'

lemma cover_covers (pis : List (ℕ × ℕ)) (M : Finset ℕ) (n : ℕ)
    (hcov : ∀ m ∈ M, ∃ pi ∈ pis, m ∈ get_covered_minterms pi n) :
    ∀ m ∈ M, ∃ pi ∈ essential_prime_implicant_cover pis M n,
      m ∈ get_covered_minterms pi n := by
  intro m hm
  obtain ⟨pim, hpim, hpimcov⟩ := hcov m hm
  have hpisne : pis ≠ [] := List.ne_nil_of_mem hpim
  have hMne : M ≠ ∅ := Finset.ne_empty_of_mem hm
  simp only [essential_prime_implicant_cover]
  rw [if_neg (show ¬(pis = [] ∨ M = ∅) by simp [hpisne, hMne])]
  obtain ⟨E, hE⟩ : ∃ E, essentialPair (coverageItems pis M n) (ascList M) = E := ⟨_, rfl⟩
  rw [hE]
  have hEinv : (∀ x ∈ E.2, ∃ pc ∈ coverageItems pis M n, pc.1 ∈ E.1 ∧ x ∈ pc.2) ∧
      (∀ q ∈ E.1, ∃ pc ∈ coverageItems pis M n, pc.1 = q) := by
    rw [← hE]
    exact essentialPair_fold_inv (coverageItems pis M n) (ascList M) ([], ∅)
      (fun x hx => absurd hx (Finset.not_mem_empty x))
      (fun q hq => absurd hq (List.not_mem_nil q))
  by_cases hmE : m ∈ E.2
  · obtain ⟨pc, hpcC, hpc1, hpc2⟩ := hEinv.1 m hmE
    obtain ⟨pi', hpi'd, rfl⟩ := List.mem_map.1 hpcC
    have hmget : m ∈ get_covered_minterms pi' n := (Finset.mem_inter.1 hpc2).1
    split
    · exact ⟨pi', hpc1, hmget⟩
    · split
      · exact ⟨pi', hpc1, hmget⟩
      · split
        · exact ⟨pi', hpc1, hmget⟩
        · exact ⟨pi', List.mem_append.2 (Or.inl hpc1), hmget⟩
  · have hrem : m ∈ M \ E.2 := Finset.mem_sdiff.2 ⟨hm, hmE⟩
    have hremne : M \ E.2 ≠ ∅ := Finset.ne_empty_of_mem hrem
    rw [if_neg hremne]
    have hdedup : pim ∈ dedupF [] pis := (mem_dedupF pis [] pim).2 ⟨hpim, by simp⟩
    have hpcmC : (pim, get_covered_minterms pim n ∩ M) ∈ coverageItems pis M n :=
      List.mem_map.2 ⟨pim, hdedup, rfl⟩
    have hmpcm : m ∈ get_covered_minterms pim n ∩ M := Finset.mem_inter.2 ⟨hpimcov, hm⟩
    have hiCl : indexOfPi pis pim ∈ clauseIdxs (coverageItems pis M n) pis m :=
      mem_clauseIdxs.2 ⟨(pim, get_covered_minterms pim n ∩ M), hpcmC, hmpcm, rfl⟩
    have hclne : clauseIdxs (coverageItems pis M n) pis m ≠ ∅ := Finset.ne_empty_of_mem hiCl
    have hcovsub : ∀ pc ∈ coverageItems pis M n, pc.1 ∈ E.1 → pc.2 ⊆ E.2 := by
      rw [← hE]
      exact essentialPair_fold_covsub (coverageItems pis M n)
        (coverageItems_keys_nodup pis M n) (ascList M) ([], ∅)
        (fun pc hpc h => absurd h (List.not_mem_nil _))
    have hcl2ne : clauseIdxs (coverageItems pis M n) pis m \
        essentialIdxSet pis E.1 ≠ ∅ := by
      intro hempty
      have hsub := Finset.sdiff_eq_empty_iff_subset.1 hempty
      have hiE : indexOfPi pis pim ∈ essentialIdxSet pis E.1 := hsub hiCl
      obtain ⟨epi, hepi, hlast⟩ := mem_essentialIdxSet.1 hiE
      obtain ⟨hlastm, hgetD, hlt⟩ := indexOfPi_getD hpim
      have heq : epi = pim := lastIdx?_inj hlast hlastm
      rw [heq] at hepi
      have hsubE2 := hcovsub _ hpcmC hepi
      exact hmE (hsubE2 hmpcm)
    have hclmem : (clauseIdxs (coverageItems pis M n) pis m \
        essentialIdxSet pis E.1) ∈
        buildClauses (coverageItems pis M n) pis E.1 (ascList (M \ E.2)) := by
      rw [buildClauses_eq]
      exact buildClauses_mem _ [] m (mem_ascList.2 hrem) hclne hcl2ne
    have hclsne : buildClauses (coverageItems pis M n) pis E.1 (ascList (M \ E.2)) ≠ [] :=
      List.ne_nil_of_mem hclmem
    rw [if_neg hclsne]
    have hclprops : ∀ cl ∈ buildClauses (coverageItems pis M n) pis E.1
        (ascList (M \ E.2)), cl ≠ ∅ := by
      intro cl hcl
      rw [buildClauses_eq] at hcl
      rcases buildClauses_sound _ [] cl hcl with h | ⟨m', _, _, hne⟩
      · exact absurd h (List.not_mem_nil cl)
      · exact hne
    have hprodne : petrickProducts (litCounts pis)
        (buildClauses (coverageItems pis M n) pis E.1 (ascList (M \ E.2))) ≠ [] := by
      unfold petrickProducts
      exact petrick_fold_ne_nil _ [∅] hclprops (by simp)
    rw [if_neg hprodne]
    have hchosen : chooseProduct (litCounts pis)
        (petrickProducts (litCounts pis)
          (buildClauses (coverageItems pis M n) pis E.1 (ascList (M \ E.2)))) ∈
        petrickProducts (litCounts pis)
          (buildClauses (coverageItems pis M n) pis E.1 (ascList (M \ E.2))) :=
      chooseProduct_mem hprodne
    obtain ⟨p0, hp0, hp0sub, hhits⟩ := petrick_fold_inv
      (buildClauses (coverageItems pis M n) pis E.1 (ascList (M \ E.2))) [∅] _ hchosen
    obtain ⟨i, hichosen, hicl⟩ := hhits _ hclmem
    have hiCl2 : i ∈ clauseIdxs (coverageItems pis M n) pis m :=
      (Finset.mem_sdiff.1 hicl).1
    obtain ⟨pc', hpc'C, hmpc', hieq⟩ := mem_clauseIdxs.1 hiCl2
    obtain ⟨pi', hpi'd, rfl⟩ := List.mem_map.1 hpc'C
    have hpi'pis : pi' ∈ pis := ((mem_dedupF pis [] pi').1 hpi'd).1
    obtain ⟨-, hgetD', -⟩ := indexOfPi_getD hpi'pis
    refine ⟨pis.getD i (0, 0), List.mem_append.2 (Or.inr
      (List.mem_map.2 ⟨i, mem_ascList.2 hichosen, rfl⟩)), ?_⟩
    rw [hieq, hgetD']
    exact (Finset.mem_inter.1 hmpc').1

lemma cover_subset (pis : List (ℕ × ℕ)) (M : Finset ℕ) (n : ℕ) :
    ∀ pi ∈ essential_prime_implicant_cover pis M n, pi ∈ pis := by
  intro pi hpi
  by_cases hguard : pis = [] ∨ M = ∅
  · unfold essential_prime_implicant_cover at hpi
    rw [if_pos hguard] at hpi
    exact hpi
  · simp only [essential_prime_implicant_cover] at hpi
    rw [if_neg hguard] at hpi
    obtain ⟨E, hE⟩ : ∃ E, essentialPair (coverageItems pis M n) (ascList M) = E := ⟨_, rfl⟩
    rw [hE] at hpi
    have hE1sub : ∀ q ∈ E.1, q ∈ pis := by
      intro q hq
      have hEinv : ∀ q' ∈ E.1, ∃ pc ∈ coverageItems pis M n, pc.1 = q' := by
        rw [← hE]
        exact (essentialPair_fold_inv (coverageItems pis M n) (ascList M) ([], ∅)
          (fun x hx => absurd hx (Finset.not_mem_empty x))
          (fun q' hq' => absurd hq' (List.not_mem_nil q'))).2
      obtain ⟨pc, hpcC, hpc1⟩ := hEinv q hq
      obtain ⟨pi', hpi'd, rfl⟩ := List.mem_map.1 hpcC
      rw [← hpc1]
      exact ((mem_dedupF pis [] pi').1 hpi'd).1
    split at hpi
    · exact hE1sub pi hpi
    · split at hpi
      · exact hE1sub pi hpi
      · split at hpi
        · exact hE1sub pi hpi
        · rcases List.mem_append.1 hpi with h | h
          · exact hE1sub pi h
          · obtain ⟨i, hi, rfl⟩ := List.mem_map.1 h
            have hichosen := mem_ascList.1 hi
            have hQ : ∀ p ∈ petrickProducts (litCounts pis)
                (buildClauses (coverageItems pis M n) pis E.1 (ascList (M \ E.2))),
                ∀ i' ∈ p, pis.getD i' (0, 0) ∈ pis := by
              apply petrick_fold_idx _ [∅]
              · intro p hp i' hi'
                rw [List.mem_singleton.1 hp] at hi'
                exact absurd hi' (Finset.not_mem_empty i')
              · intro cl hcl i' hi'
                rw [buildClauses_eq] at hcl
                rcases buildClauses_sound _ [] cl hcl with hnil | ⟨m', -, rfl, -⟩
                · exact absurd hnil (List.not_mem_nil cl)
                · have hiCl : i' ∈ clauseIdxs (coverageItems pis M n) pis m' :=
                    (Finset.mem_sdiff.1 hi').1
                  obtain ⟨pc', hpc'C, -, hieq⟩ := mem_clauseIdxs.1 hiCl
                  obtain ⟨pi', hpi'd, rfl⟩ := List.mem_map.1 hpc'C
                  have hpi'pis : pi' ∈ pis := ((mem_dedupF pis [] pi').1 hpi'd).1
                  obtain ⟨-, hgetD', -⟩ := indexOfPi_getD hpi'pis
                  rw [hieq, hgetD']
                  exact hpi'pis
            have hchosen : chooseProduct (litCounts pis)
                (petrickProducts (litCounts pis)
                  (buildClauses (coverageItems pis M n) pis E.1 (ascList (M \ E.2)))) ∈
                petrickProducts (litCounts pis)
                  (buildClauses (coverageItems pis M n) pis E.1 (ascList (M \ E.2))) := by
              apply chooseProduct_mem
              next hprods => exact hprods
            exact hQ _ hchosen i hichosen

/-! ### Parsing the formatter's output -/

lemma dropWhile_false_eq_self {p : Char → Bool} :
    ∀ {l : List Char}, (∀ c ∈ l, p c = false) → l.dropWhile p = l := by
  intro l h
  cases l with
  | nil => rfl
  | cons c cs =>
    rw [List.dropWhile_cons, if_neg]
    rw [h c (List.mem_cons_self _ _)]
    simp

lemma stripList_eq_self {l : List Char} (h : ∀ c ∈ l, isPySpace c = false) :
    stripList l = l := by
  unfold stripList
  rw [dropWhile_false_eq_self h]
  rw [dropWhile_false_eq_self (fun c hc => h c (List.mem_reverse.1 hc))]
  exact List.reverse_reverse l

lemma upper_isAlpha {c : Char} (h : isUpperAZ c = true) : c.isAlpha = true := by
  simp only [isUpperAZ, Bool.and_eq_true, decide_eq_true_eq] at h
  simp only [Char.isAlpha, Char.isUpper, Bool.or_eq_true, Bool.and_eq_true,
    decide_eq_true_eq]
  left
  exact ⟨h.1, h.2⟩

lemma exists_testBit_of_ne_zero {n : ℕ} (h : n ≠ 0) : ∃ j, n.testBit j = true := by
  by_contra hc
  push_neg at hc
  apply h
  apply Nat.eq_of_testBit_eq
  intro j
  rw [Nat.zero_testBit]
  exact Bool.eq_false_iff.2 (hc j)

lemma lastIdx?_mem [DecidableEq α] {l : List α} {a : α} {i : ℕ}
    (h : lastIdx? l a = some i) : a ∈ l := by
  obtain ⟨h1, h2⟩ := lastIdx?_lt_getD l a i a h
  rw [← h2, List.getD_eq_getElem l a h1]
  exact List.getElem_mem h1

lemma lastIdx?_nodup [DecidableEq α] :
    ∀ {l : List α}, l.Nodup → ∀ {i : ℕ} {a : α}, l[i]? = some a →
      lastIdx? l a = some i := by
  intro l
  induction l with
  | nil =>
    intro _ i a h
    simp at h
  | cons b bs ih =>
    intro hnd i a h
    have hnd2 := List.nodup_cons.1 hnd
    unfold lastIdx?
    cases i with
    | zero =>
      have hab : b = a := by simpa using h
      subst hab
      cases hbs : lastIdx? bs b with
      | some j => exact absurd (lastIdx?_mem hbs) hnd2.1
      | none => rw [if_pos rfl]
    | succ j =>
      have hbs : bs[j]? = some a := by simpa using h
      rw [ih hnd2.2 hbs]

lemma testBit_lt_length {t j : ℕ} {vars : List Char} (ht : t < 2 ^ vars.length)
    (htj : t.testBit j = true) : j < vars.length := by
  by_contra hge
  push_neg at hge
  have h2 : t < 2 ^ j := lt_of_lt_of_le ht (Nat.pow_le_pow_right (by norm_num) hge)
  have h3 := Nat.testBit_eq_false_of_lt h2
  rw [htj] at h3
  cases h3

lemma termSat_letters (vars : List Char) (hnd : vars.Nodup) (t m : ℕ)
    (ht : t < 2 ^ vars.length) :
    termSat vars m (implicantLetters (t, t) vars) = true ↔ t &&& m = t := by
  unfold termSat
  rw [List.all_eq_true]
  constructor
  · intro hall
    apply Nat.eq_of_testBit_eq
    intro j
    rw [Nat.testBit_land]
    cases htj : t.testBit j with
    | false => rw [Bool.false_and]
    | true =>
      have hjlt : j < vars.length := testBit_lt_length ht htj
      have hilt : vars.length - 1 - j < vars.length := by omega
      have hji : vars.length - 1 - (vars.length - 1 - j) = j := by omega
      have hget : vars[vars.length - 1 - j]? = some vars[vars.length - 1 - j] :=
        List.getElem?_eq_getElem hilt
      have hcmem : vars[vars.length - 1 - j] ∈ implicantLetters (t, t) vars := by
        apply mem_implicantLetters.2
        refine ⟨vars.length - 1 - j, hilt, hget, ?_, ?_⟩
        · show Nat.testBit t (vars.length - 1 - (vars.length - 1 - j)) = true
          rw [hji]
          exact htj
        · show Nat.testBit t (vars.length - 1 - (vars.length - 1 - j)) = true
          rw [hji]
          exact htj
      have hv := hall _ hcmem
      unfold varVal at hv
      rw [lastIdx?_nodup hnd hget] at hv
      have hv2 : Nat.testBit m j = true := by
        have hv3 : Nat.testBit m (vars.length - 1 - (vars.length - 1 - j)) = true := hv
        rw [hji] at hv3
        exact hv3
      rw [Bool.true_and, hv2]
  · intro heq f hf
    obtain ⟨i, hilt, hget, h1, h2⟩ := mem_implicantLetters.1 hf
    unfold varVal
    rw [lastIdx?_nodup hnd hget]
    show Nat.testBit m (vars.length - 1 - i) = true
    have hteq := congrArg (fun z => Nat.testBit z (vars.length - 1 - i)) heq
    simp only [Nat.testBit_land] at hteq
    have h1' : Nat.testBit t (vars.length - 1 - i) = true := h1
    rw [h1', Bool.true_and] at hteq
    exact hteq

lemma implicantLetters_ne_nil {t : ℕ} {vars : List Char} (ht : t < 2 ^ vars.length)
    (htne : t ≠ 0) : implicantLetters (t, t) vars ≠ [] := by
  obtain ⟨j, hj⟩ := exists_testBit_of_ne_zero htne
  have hjlt : j < vars.length := testBit_lt_length ht hj
  have hilt : vars.length - 1 - j < vars.length := by omega
  have hji : vars.length - 1 - (vars.length - 1 - j) = j := by omega
  apply List.ne_nil_of_mem (a := vars[vars.length - 1 - j])
  apply mem_implicantLetters.2
  refine ⟨vars.length - 1 - j, hilt, List.getElem?_eq_getElem hilt, ?_, ?_⟩
  · show Nat.testBit t (vars.length - 1 - (vars.length - 1 - j)) = true
    rw [hji]
    exact hj
  · show Nat.testBit t (vars.length - 1 - (vars.length - 1 - j)) = true
    rw [hji]
    exact hj

lemma unbracket_bracket (g : List Char) :
    ("[" ++ (⟨g⟩ : String) ++ "]").data.tail.dropLast = g := by
  rw [bracket_data]
  show (g ++ [']']).dropLast = g
  simp

lemma formatCover_structure (cover : List (ℕ × ℕ)) (vars : List Char)
    (hvup : ∀ c ∈ vars, isUpperAZ c = true) :
    ∃ gs' : List (List Char),
      (formatCover cover vars).data =
        (gs'.map (fun g => '[' :: (g ++ [']']))).flatten ∧
      findallGroups (formatCover cover vars).data = gs' ∧
      gs'.Perm ((cover.map (fun pi => implicantLetters pi vars)).filter
        (fun g => g ≠ [])) := by
  obtain ⟨L, hL⟩ : ∃ L, insSort strLe
      (((cover.map (fun pi => implicantLetters pi vars)).filter (fun g => g ≠ [])).map
        (fun g => "[" ++ (⟨g⟩ : String) ++ "]")) = L := ⟨_, rfl⟩
  have hmemL : ∀ s ∈ L, ∃ g ∈ (cover.map (fun pi => implicantLetters pi vars)).filter
      (fun g => g ≠ []), s = "[" ++ (⟨g⟩ : String) ++ "]" := by
    intro s hs
    rw [← hL] at hs
    obtain ⟨g, hg, hsg⟩ := List.mem_map.1 ((mem_insSort strLe).1 hs)
    exact ⟨g, hg, hsg.symm⟩
  have hdata : (formatCover cover vars).data =
      ((L.map (fun s => s.data.tail.dropLast)).map (fun g => '[' :: (g ++ [']']))).flatten := by
    simp only [formatCover]
    rw [format_terms_eq, hL, foldl_append_data]
    have hnil : ("" : String).data = [] := rfl
    rw [hnil, List.nil_append, List.map_map]
    congr 1
    apply List.map_congr_left
    intro s hs
    obtain ⟨g, hg, rfl⟩ := hmemL s hs
    show ("[" ++ (⟨g⟩ : String) ++ "]").data =
      '[' :: (("[" ++ (⟨g⟩ : String) ++ "]").data.tail.dropLast ++ [']'])
    rw [unbracket_bracket, bracket_data]
  have hgsmem : ∀ g' ∈ L.map (fun s => s.data.tail.dropLast),
      g' ∈ (cover.map (fun pi => implicantLetters pi vars)).filter (fun g => g ≠ []) := by
    intro g' hg'
    obtain ⟨s, hs, hsg⟩ := List.mem_map.1 hg'
    obtain ⟨g, hg, rfl⟩ := hmemL s hs
    rw [← hsg, unbracket_bracket]
    exact hg
  refine ⟨L.map (fun s => s.data.tail.dropLast), hdata, ?_, ?_⟩
  · rw [hdata]
    apply findallGroups_brackets
    intro g' hg'
    have hmem := hgsmem g' hg'
    rw [List.mem_filter] at hmem
    obtain ⟨hgm, hgne⟩ := hmem
    obtain ⟨pi, -, rfl⟩ := List.mem_map.1 hgm
    refine ⟨by simpa using hgne, ?_⟩
    intro c hc
    exact hvup c ((implicantLetters_sublist pi vars).subset hc)
  · have hperm1 : L.Perm
        (((cover.map (fun pi => implicantLetters pi vars)).filter (fun g => g ≠ [])).map
          (fun g => "[" ++ (⟨g⟩ : String) ++ "]")) := by
      rw [← hL]
      exact insSort_perm strLe _
    have hperm2 := hperm1.map (fun s => s.data.tail.dropLast)
    rw [List.map_map] at hperm2
    have hid : (((cover.map (fun pi => implicantLetters pi vars)).filter
        (fun g => g ≠ [])).map
          ((fun s : String => s.data.tail.dropLast) ∘ fun g => "[" ++ (⟨g⟩ : String) ++ "]")) =
        (cover.map (fun pi => implicantLetters pi vars)).filter (fun g => g ≠ []) := by
      have h2 : ∀ g ∈ (cover.map (fun pi => implicantLetters pi vars)).filter
          (fun g => g ≠ []),
          ((fun s : String => s.data.tail.dropLast) ∘ fun g => "[" ++ (⟨g⟩ : String) ++ "]") g
            = id g := by
        intro g _
        exact unbracket_bracket g
      rw [List.map_congr_left h2, List.map_id]
    rw [hid] at hperm2
    exact hperm2

lemma parse_bracket_flatten {vars : List Char} {s : String} {gs' : List (List Char)}
    (hdata : s.data = (gs'.map (fun g => '[' :: (g ++ [']']))).flatten)
    (hfind : findallGroups s.data = gs')
    (hup : ∀ g ∈ gs', ∀ c ∈ g, isUpperAZ c = true)
    (hne : gs' ≠ []) :
    parse_expr_to_minterms (some s) vars =
      (Finset.range (2 ^ vars.length)).filter
        (fun m => gs'.any (fun t => termSat vars m t)) := by
  have hnonspace : ∀ c ∈ s.data, isPySpace c = false := by
    intro c hc
    rw [hdata] at hc
    obtain ⟨piece, hpiece, hcp⟩ := List.mem_flatten.1 hc
    obtain ⟨g, hg, rfl⟩ := List.mem_map.1 hpiece
    rcases List.mem_cons.1 hcp with rfl | hcp2
    · decide
    · rcases List.mem_append.1 hcp2 with h | h
      · exact upper_not_space (hup g hg c h)
      · rw [List.mem_singleton.1 h]
        decide
  have hstrip : stripList s.data = s.data := stripList_eq_self hnonspace
  obtain ⟨g0, rest, rfl⟩ : ∃ g0 rest, gs' = g0 :: rest := by
    cases gs' with
    | nil => exact absurd rfl hne
    | cons g0 rest => exact ⟨g0, rest, rfl⟩
  have hhead : s.data = '[' :: (g0 ++ [']'] ++
      ((rest.map (fun g => '[' :: (g ++ [']']))).flatten)) := by
    rw [hdata]
    simp
  have hne2 : s.data ≠ [] := by
    rw [hhead]
    exact List.cons_ne_nil _ _
  have hnedash : s.data ≠ ['-'] := by
    rw [hhead]
    intro hcontra
    have h2 := List.head_eq_of_cons_eq hcontra
    exact absurd h2 (by decide)
  have hterms : exprTerms s = g0 :: rest := by
    unfold exprTerms
    rw [hfind]
    have h2 : ∀ g ∈ g0 :: rest, g.filter Char.isAlpha = id g := by
      intro g hg
      exact List.filter_eq_self.2 (fun c hc => upper_isAlpha (hup g hg c hc))
    rw [List.map_congr_left h2, List.map_id]
  simp only [parse_expr_to_minterms]
  rw [if_neg (show ¬(stripList s.data = [] ∨ stripList s.data = ['-']) by
    rw [hstrip]
    push_neg
    exact ⟨hne2, hnedash⟩)]
  rw [hterms]
  rw [if_neg (List.cons_ne_nil g0 rest)]

lemma parse_empty_string (vars : List Char) :
    parse_expr_to_minterms (some "") vars = ∅ := by
  simp only [parse_expr_to_minterms]
  rw [if_pos]
  left
  rfl

lemma minimize_roundtrip (M : Finset ℕ) (U : List Char)
    (hUnd : U.Nodup) (hvup : ∀ c ∈ U, isUpperAZ c = true)
    (hlen : U.length ≤ 6)
    (hMsub : M ⊆ Finset.range (2 ^ U.length))
    (hM0 : 0 ∉ M)
    (hMclosed : ∀ m ∈ M, ∀ m', m' < 2 ^ U.length → m &&& m' = m → m' ∈ M) :
    parse_expr_to_minterms (some (minimize_karnaugh M U)) U = M := by
  by_cases hMne : M = ∅
  · subst hMne
    rw [show minimize_karnaugh ∅ U = "" from by simp [minimize_karnaugh]]
    exact parse_empty_string U
  obtain ⟨m0, hm0⟩ := Finset.nonempty_iff_ne_empty.2 hMne
  obtain ⟨u0, hu0, -⟩ := fpi_covers M m0 hm0
  have hprimesne : find_prime_implicants M ≠ [] := List.ne_nil_of_mem hu0
  have hminkar : minimize_karnaugh M U =
      formatCover
        (essential_prime_implicant_cover (find_prime_implicants M) M U.length) U := by
    simp only [minimize_karnaugh]
    rw [if_neg hMne, if_neg (show ¬6 < U.length by omega), if_neg hprimesne]
  rw [hminkar]
  have hdiagmem := fpi_diag_mem M
  have hcovhyp : ∀ m ∈ M, ∃ pi ∈ find_prime_implicants M,
      m ∈ get_covered_minterms pi U.length := by
    intro m hm
    obtain ⟨u, hu, hland⟩ := fpi_covers M m hm
    have huM : u ∈ M := (hdiagmem (u, u) hu).2
    have hult : u < 2 ^ U.length := Finset.mem_range.1 (hMsub huM)
    have hmlt : m < 2 ^ U.length := Finset.mem_range.1 (hMsub hm)
    exact ⟨(u, u), hu, (mem_get_covered_diag hult).2 ⟨hmlt, hland⟩⟩
  have hcc := cover_covers (find_prime_implicants M) M U.length hcovhyp
  have hcs := cover_subset (find_prime_implicants M) M U.length
  have hgsne : (((essential_prime_implicant_cover (find_prime_implicants M) M
      U.length).map (fun pi => implicantLetters pi U)).filter (fun g => g ≠ [])) ≠ [] := by
    obtain ⟨pi, hpi, -⟩ := hcc m0 hm0
    obtain ⟨pt1, pt2⟩ := pi
    have hdm := hdiagmem (pt1, pt2) (hcs _ hpi)
    have hpt2 : pt1 = pt2 := hdm.1.symm
    subst hpt2
    have hptM : pt1 ∈ M := hdm.2
    have hptlt : pt1 < 2 ^ U.length := Finset.mem_range.1 (hMsub hptM)
    have hptne : pt1 ≠ 0 := by
      rintro rfl
      exact hM0 hptM
    apply List.ne_nil_of_mem (a := implicantLetters (pt1, pt1) U)
    rw [List.mem_filter]
    refine ⟨List.mem_map.2 ⟨(pt1, pt1), hpi, rfl⟩, ?_⟩
    simp only [decide_eq_true_eq]
    exact implicantLetters_ne_nil hptlt hptne
  obtain ⟨gs', hdata, hfind, hperm⟩ := formatCover_structure
    (essential_prime_implicant_cover (find_prime_implicants M) M U.length) U hvup
  have hup : ∀ g ∈ gs', ∀ c ∈ g, isUpperAZ c = true := by
    intro g hg c hc
    have hg2 := hperm.mem_iff.1 hg
    rw [List.mem_filter] at hg2
    obtain ⟨hgm, -⟩ := hg2
    obtain ⟨pi, -, rfl⟩ := List.mem_map.1 hgm
    exact hvup c ((implicantLetters_sublist pi U).subset hc)
  have hgs'ne : gs' ≠ [] := by
    intro hnil
    rw [hnil] at hperm
    exact hgsne hperm.symm.eq_nil
  rw [parse_bracket_flatten hdata hfind hup hgs'ne]
  ext x
  rw [Finset.mem_filter, Finset.mem_range, List.any_eq_true]
  constructor
  · rintro ⟨hxlt, g, hg, hsat⟩
    have hg2 := hperm.mem_iff.1 hg
    rw [List.mem_filter] at hg2
    obtain ⟨hgm, -⟩ := hg2
    obtain ⟨pi, hpicov, rfl⟩ := List.mem_map.1 hgm
    obtain ⟨pt1, pt2⟩ := pi
    have hdm := hdiagmem (pt1, pt2) (hcs _ hpicov)
    have hpt2 : pt1 = pt2 := hdm.1.symm
    subst hpt2
    have hptM : pt1 ∈ M := hdm.2
    have hptlt : pt1 < 2 ^ U.length := Finset.mem_range.1 (hMsub hptM)
    have hland : pt1 &&& x = pt1 := (termSat_letters U hUnd pt1 x hptlt).1 hsat
    exact hMclosed pt1 hptM x hxlt hland
  · intro hx
    have hxlt : x < 2 ^ U.length := Finset.mem_range.1 (hMsub hx)
    obtain ⟨pi, hpicov, hget⟩ := hcc x hx
    obtain ⟨pt1, pt2⟩ := pi
    have hdm := hdiagmem (pt1, pt2) (hcs _ hpicov)
    have hpt2 : pt1 = pt2 := hdm.1.symm
    subst hpt2
    have hptM : pt1 ∈ M := hdm.2
    have hptlt : pt1 < 2 ^ U.length := Finset.mem_range.1 (hMsub hptM)
    have hptne : pt1 ≠ 0 := by
      rintro rfl
      exact hM0 hptM
    have hland : pt1 &&& x = pt1 := ((mem_get_covered_diag hptlt).1 hget).2
    refine ⟨hxlt, implicantLetters (pt1, pt1) U, ?_, ?_⟩
    · apply hperm.mem_iff.2
      rw [List.mem_filter]
      refine ⟨List.mem_map.2 ⟨(pt1, pt1), hpicov, rfl⟩, ?_⟩
      simp only [decide_eq_true_eq]
      exact implicantLetters_ne_nil hptlt hptne
    · exact (termSat_letters U hUnd pt1 x hptlt).2 hland

/-! ### Properties of any parsed expression -/

lemma matchGroup_letters {cs l r : List Char} (h : matchGroup cs = some (l, r)) :
    l ≠ [] ∧ ∀ c ∈ l, isUpperAZ c = true := by
  simp only [matchGroup] at h
  split at h
  · cases h
  · rename_i letters0 cs20 hd0 tl0 rst0 heq1 heq2
    have h2 := Option.some.inj h
    have hl : (cs.dropWhile isPySpace).takeWhile isUpperAZ = l :=
      congrArg Prod.fst h2
    constructor
    · rw [← hl, heq1]
      exact List.cons_ne_nil _ _
    · intro c hc
      rw [← hl] at hc
      exact List.mem_takeWhile_imp hc
  · cases h

lemma scanFuel_upper : ∀ (f : ℕ) (cs : List Char), ∀ g ∈ scanFuel f cs,
    g ≠ [] ∧ ∀ c ∈ g, isUpperAZ c = true := by
  intro f
  induction f with
  | zero =>
    intro cs g hg
    simp [scanFuel] at hg
  | succ f ih =>
    intro cs g hg
    cases cs with
    | nil => simp [scanFuel] at hg
    | cons c rest =>
      simp only [scanFuel] at hg
      by_cases hc : c = '['
      · rw [if_pos hc] at hg
        cases hm : matchGroup rest with
        | none =>
          rw [hm] at hg
          exact ih rest g hg
        | some lr =>
          obtain ⟨letters, rest2⟩ := lr
          rw [hm] at hg
          rcases List.mem_cons.1 hg with rfl | hg2
          · exact matchGroup_letters hm
          · exact ih rest2 g hg2
      · rw [if_neg hc] at hg
        exact ih rest g hg

lemma extract_variables_nodup (e : Option String) : (extract_variables e).Nodup := by
  unfold extract_variables sortedDedupCh
  exact ((insSort_perm chLe _).nodup_iff).2 (dedupF_nodup _ [])

lemma extract_variables_upper (e : Option String) :
    ∀ c ∈ extract_variables e, isUpperAZ c = true := by
  intro c hc
  unfold extract_variables sortedDedupCh at hc
  have h1 := ((mem_dedupF _ [] c).1 ((mem_insSort chLe).1 hc)).1
  cases e with
  | none => exact absurd h1 (List.not_mem_nil c)
  | some s =>
    rw [show extractLetters (some s) = if s = "" then []
      else (findallGroups s.data).flatMap (fun g => g.filter Char.isAlpha) from rfl] at h1
    by_cases hs : s = ""
    · rw [if_pos hs] at h1
      exact absurd h1 (List.not_mem_nil c)
    · rw [if_neg hs] at h1
      obtain ⟨g, hg, hcg⟩ := List.mem_flatMap.1 h1
      have hup := (scanFuel_upper s.data.length s.data g hg).2
      exact hup c (List.mem_filter.1 hcg).1

lemma parse_subset_range (e : Option String) (vars : List Char) :
    parse_expr_to_minterms e vars ⊆ Finset.range (2 ^ vars.length) := by
  intro m hm
  cases e with
  | none => exact absurd hm (Finset.not_mem_empty m)
  | some s =>
    simp only [parse_expr_to_minterms] at hm
    split at hm
    · exact absurd hm (Finset.not_mem_empty m)
    · split at hm
      · exact absurd hm (Finset.not_mem_empty m)
      · exact (Finset.mem_filter.1 hm).1

lemma parse_zero_not_mem (s : String) (vars : List Char) :
    0 ∉ parse_expr_to_minterms (some s) vars := by
  intro h0
  simp only [parse_expr_to_minterms] at h0
  split at h0
  · exact absurd h0 (Finset.not_mem_empty 0)
  · split at h0
    · exact absurd h0 (Finset.not_mem_empty 0)
    · rw [Finset.mem_filter] at h0
      obtain ⟨-, hany⟩ := h0
      rw [List.any_eq_true] at hany
      obtain ⟨t, ht, hsat⟩ := hany
      unfold exprTerms at ht
      obtain ⟨g, hg, rfl⟩ := List.mem_map.1 ht
      obtain ⟨hgne, hgup⟩ := scanFuel_upper s.data.length s.data g hg
      have hfg : g.filter Char.isAlpha = g :=
        List.filter_eq_self.2 (fun c hc => upper_isAlpha (hgup c hc))
      rw [hfg] at hsat
      cases g with
      | nil => exact hgne rfl
      | cons c cs2 =>
        unfold termSat at hsat
        rw [List.all_eq_true] at hsat
        have hv := hsat c (List.mem_cons_self _ _)
        unfold varVal at hv
        cases hli : lastIdx? vars c with
        | none =>
          rw [hli] at hv
          cases hv
        | some i =>
          rw [hli] at hv
          have h2 : Nat.testBit 0 (vars.length - 1 - i) = true := hv
          rw [Nat.zero_testBit] at h2
          cases h2

lemma parse_closed (s : String) (vars : List Char) :
    ∀ m ∈ parse_expr_to_minterms (some s) vars, ∀ m', m' < 2 ^ vars.length →
      m &&& m' = m → m' ∈ parse_expr_to_minterms (some s) vars := by
  intro m hm m' hm'lt hland
  simp only [parse_expr_to_minterms] at hm ⊢
  by_cases h1 : stripList s.data = [] ∨ stripList s.data = ['-']
  · rw [if_pos h1] at hm
    exact absurd hm (Finset.not_mem_empty m)
  · rw [if_neg h1] at hm ⊢
    by_cases h2 : exprTerms s = []
    · rw [if_pos h2] at hm
      exact absurd hm (Finset.not_mem_empty m)
    · rw [if_neg h2] at hm ⊢
      rw [Finset.mem_filter] at hm ⊢
      obtain ⟨-, hany⟩ := hm
      refine ⟨Finset.mem_range.2 hm'lt, ?_⟩
      rw [List.any_eq_true] at hany ⊢
      obtain ⟨t, ht, hsat⟩ := hany
      refine ⟨t, ht, ?_⟩
      unfold termSat at hsat ⊢
      rw [List.all_eq_true] at hsat ⊢
      intro f hf
      have hv := hsat f hf
      unfold varVal at hv ⊢
      revert hv
      cases hli : lastIdx? vars f with
      | none =>
        intro hv
        exact absurd hv (by simp)
      | some i =>
        intro hv
        show Nat.testBit m' (vars.length - 1 - i) = true
        have hb := congrArg (fun z => Nat.testBit z (vars.length - 1 - i)) hland
        simp only [Nat.testBit_land] at hb
        have hv' : Nat.testBit m (vars.length - 1 - i) = true := hv
        rw [hv', Bool.true_and] at hb
        exact hb

/-- C1 (amended): round-trip semantic preservation holds whenever the
induced variable universe has at most 6 variables (the practical bound of
the minimizer): for every input string `s` with universe `U` of at most 6
variables, parsing the canonical string produced by the full pipeline
(parse, minterm generation, prime implicants, minimal cover, format) over
`U` yields exactly the minterm set of `parse(s)` over `U`.  (Above 6
variables the pipeline returns the empty string and the claim fails, see
the counterexample.) -/
theorem claim1_thm (s : String)
    (h : (extract_variables (some s)).length ≤ 6) :
    parse_expr_to_minterms
        (some (minimize_karnaugh
          (parse_expr_to_minterms (some s) (extract_variables (some s)))
          (extract_variables (some s))))
        (extract_variables (some s)) =
      parse_expr_to_minterms (some s) (extract_variables (some s)) := by
  apply minimize_roundtrip
  · exact extract_variables_nodup (some s)
  · exact extract_variables_upper (some s)
  · exact h
  · exact parse_subset_range (some s) (extract_variables (some s))
  · exact parse_zero_not_mem s (extract_variables (some s))
  · exact parse_closed s (extract_variables (some s))

/-- C1 (witness): the round-trip theorem applied to `s = "[A][AB]"`, whose
universe `{A, B}` has 2 ≤ 6 variables. -/
theorem claim1_witness :
    (extract_variables (some "[A][AB]")).length ≤ 6 ∧
    parse_expr_to_minterms
        (some (minimize_karnaugh
          (parse_expr_to_minterms (some "[A][AB]") (extract_variables (some "[A][AB]")))
          (extract_variables (some "[A][AB]"))))
        (extract_variables (some "[A][AB]")) =
      parse_expr_to_minterms (some "[A][AB]") (extract_variables (some "[A][AB]")) :=
  ⟨by decide, claim1_thm "[A][AB]" (by decide)⟩
